import Mathlib

/-!
Verification of the crater execution engine sources (`src/run_graph.rs`,
`src/experiments.rs`) against their natural-language specification.

The Rust sources are shallowly embedded: the petgraph `StableDiGraph` is
modelled as association lists of nodes and edges with stable, never-reused
ids; recursive graph walks take an explicit fuel argument (running out of
fuel, or indexing a deleted node — a panic in the source — yields `none`);
SQL statements are modelled by their effect on an explicit table state.
-/

namespace Crater

/-- Package identifier: per the spec an opaque stable string uniquely naming a
source package revision.  The serialized form stored in the database
(`crate_json`) is modelled as the string itself. -/
abbrev Crate := String

/-- Toolchain identifier: per the spec a parseable string whose equality
defines toolchain identity.  Parsing is modelled as total (the identity). -/
abbrev Toolchain := String

/-- Task steps, as constructed in `build_graph` (src/run_graph.rs): the tagged
variants `Prepare`, `BuildOnly{tc, quiet}`, `BuildAndTest{tc, quiet}`,
`CheckOnly{tc, quiet}`, `UnstableFeatures{tc}`. -/
inductive TaskStep
  | prepare
  | buildOnly (tc : Toolchain) (quiet : Bool)
  | buildAndTest (tc : Toolchain) (quiet : Bool)
  | checkOnly (tc : Toolchain) (quiet : Bool)
  | unstableFeatures (tc : Toolchain)
deriving DecidableEq

/-- A task: `{ krate, step }` (tasks.rs, as used by run_graph.rs). -/
structure Task where
  krate : Crate
  step : TaskStep
deriving DecidableEq

/-- Configuration predicates consumed by the core (config.rs contract). -/
structure Config where
  should_skip : Crate → Bool
  should_skip_tests : Crate → Bool
  is_quiet : Crate → Bool
  is_broken : Crate → Bool

/-- Modelled from the spec: the experiment mode enumeration (`ExMode`, ex.rs is
not among the sources); §3 lists mode ∈ {BuildOnly, BuildAndTest, CheckOnly,
UnstableFeatures}.  The string forms are arbitrary distinct representatives. -/
inductive ExMode
  | buildOnly
  | buildAndTest
  | checkOnly
  | unstableFeatures
deriving DecidableEq

def ExMode.toStr : ExMode → String
  | .buildOnly => "build-only"
  | .buildAndTest => "build-and-test"
  | .checkOnly => "check-only"
  | .unstableFeatures => "unstable-features"

def ExMode.fromStr (s : String) : Option ExMode :=
  if s = "build-only" then some .buildOnly
  else if s = "build-and-test" then some .buildAndTest
  else if s = "check-only" then some .checkOnly
  else if s = "unstable-features" then some .unstableFeatures
  else none

/-- Modelled from the spec: the experiment definition (ex.rs is not among the
sources); §3: name, mode, cap_lints, an ordered toolchain pair [start, end]
and an ordered list of packages.  `cap_lints` is an opaque policy tag. -/
structure Experiment where
  name : String
  crates : List Crate
  tc_start : Toolchain
  tc_end : Toolchain
  mode : ExMode
  cap_lints : String
deriving DecidableEq

/-- The ordered toolchain pair `[start, end]`, as iterated by `build_graph`. -/
def Experiment.toolchains (e : Experiment) : List Toolchain :=
  [e.tc_start, e.tc_end]

/-- Modelled from the spec: `Experiment::validate` (ex.rs is not among the
sources); §3: the two toolchains must differ, validation fails otherwise. -/
def Experiment.validate (e : Experiment) : Except Unit Unit :=
  if e.tc_start = e.tc_end then .error () else .ok ()

/-- DAG node (src/run_graph.rs `enum Node`). -/
inductive Node
  | task (task : Task) (running : Bool)
  | crateCompleted
  | root
deriving DecidableEq

/-- Result of a graph walk (src/run_graph.rs `enum WalkResult`). -/
inductive WalkResult
  | task (id : Nat) (task : Task)
  | blocked
  | notBlocked
  | finished
deriving DecidableEq

/-- The task graph.  petgraph's `StableDiGraph` keeps node indices stable
across deletions and (in this delete-only usage, where no node is ever added
after construction) never reuses them; it is modelled as an association list
of live nodes plus an edge list, both in insertion order, with a fresh-id
counter. -/
structure TasksGraph where
  nodes : List (Nat × Node)
  edges : List (Nat × Nat)
  root : Nat
  nextId : Nat
deriving DecidableEq

/-- Node lookup (petgraph indexing; `none` models a deleted index, where the
source would panic). -/
def lookupNodes : List (Nat × Node) → Nat → Option Node
  | [], _ => none
  | (j, nd) :: rest, i => if j = i then some nd else lookupNodes rest i

def TasksGraph.lookup (g : TasksGraph) (i : Nat) : Option Node :=
  lookupNodes g.nodes i

def removeKey : List (Nat × Node) → Nat → List (Nat × Node)
  | [], _ => []
  | (j, nd) :: rest, i =>
    if j = i then removeKey rest i else (j, nd) :: removeKey rest i

def removeIncident : List (Nat × Nat) → Nat → List (Nat × Nat)
  | [], _ => []
  | (a, b) :: rest, i =>
    if a = i ∨ b = i then removeIncident rest i else (a, b) :: removeIncident rest i

/-- petgraph `remove_node`: removes the node and every edge incident to it. -/
def TasksGraph.removeNode (g : TasksGraph) (i : Nat) : TasksGraph :=
  { g with nodes := removeKey g.nodes i, edges := removeIncident g.edges i }

def setRunningKey : List (Nat × Node) → Nat → List (Nat × Node)
  | [], _ => []
  | (j, nd) :: rest, i =>
    if j = i then
      (j, match nd with
          | .task t _ => .task t true
          | other => other) :: setRunningKey rest i
    else (j, nd) :: setRunningKey rest i

/-- The in-place `*running = true` performed by `walk_graph` on the task node
it is about to return. -/
def TasksGraph.setRunning (g : TasksGraph) (i : Nat) : TasksGraph :=
  { g with nodes := setRunningKey g.nodes i }

def edgeSources : List (Nat × Nat) → Nat → List Nat
  | [], _ => []
  | (a, b) :: rest, n => if b = n then a :: edgeSources rest n else edgeSources rest n

def edgeTargets : List (Nat × Nat) → Nat → List Nat
  | [], _ => []
  | (a, b) :: rest, n => if a = n then b :: edgeTargets rest n else edgeTargets rest n

/-- petgraph `neighbors(n)` (outgoing).  petgraph iterates each adjacency list
starting from the most recently added edge, so neighbors are produced in
reverse order of edge insertion. -/
def TasksGraph.outNeighbors (g : TasksGraph) (n : Nat) : List Nat :=
  (edgeTargets g.edges n).reverse

/-- petgraph `neighbors_directed(n, Incoming)`, again in reverse order of edge
insertion. -/
def TasksGraph.inNeighbors (g : TasksGraph) (n : Nat) : List Nat :=
  (edgeSources g.edges n).reverse

/-- `TasksGraph::new`: a fresh graph holding only the root node. -/
def TasksGraph.new : TasksGraph :=
  { nodes := [(0, .root)], edges := [], root := 0, nextId := 1 }

/-- `TasksGraph::add_node` (private helper): add the node, then one edge from
it to each dependency, in the order given. -/
def TasksGraph.add_node (g : TasksGraph) (node : Node) (deps : List Nat) :
    TasksGraph × Nat :=
  let id := g.nextId
  ({ nodes := g.nodes ++ [(id, node)]
     edges := g.edges ++ deps.map (fun dep => (id, dep))
     root := g.root
     nextId := id + 1 }, id)

/-- `TasksGraph::add_task`. -/
def TasksGraph.add_task (g : TasksGraph) (task : Task) (deps : List Nat) :
    TasksGraph × Nat :=
  g.add_node (.task task false) deps

/-- `TasksGraph::add_crate`: a crate-completed node over its dependencies plus
an edge from the root to it. -/
def TasksGraph.add_crate (g : TasksGraph) (deps : List Nat) : TasksGraph × Nat :=
  let (g, id) := g.add_node .crateCompleted deps
  ({ g with edges := g.edges ++ [(g.root, id)] }, id)

/-- `TasksGraph::mark_as_completed`: simply delete the node. -/
def TasksGraph.mark_as_completed (g : TasksGraph) (i : Nat) : TasksGraph :=
  g.removeNode i

/-- The `already_executed` test at the top of `walk_graph`: a not-running task
node whose `needs_exec` is false. -/
def walkAlready (ne : Task → Bool) : Node → Bool
  | .task t false => !ne t
  | _ => false

/-- Call shapes of the `walk_graph` recursion: visiting one node, or the loop
over a collected neighbor list carrying the `blocked` flag. -/
inductive WalkCall
  | node (n : Nat)
  | list (ns : List Nat) (blocked : Bool)

/-- Intermediate outcome of a walk call: a `WalkResult` propagating upward, or
the completion of a neighbor scan with its `blocked` flag. -/
inductive WalkOut
  | res (r : WalkResult)
  | scanned (blocked : Bool)
deriving DecidableEq

/-- `TasksGraph::walk_graph` (src/run_graph.rs).  `ne` models
`task.needs_exec(ex, db)` for the fixed experiment and result store of the
call.  Fuel exhaustion and indexing a deleted node (a panic in the source)
yield `none`.  A `.node` call: if the node is an idle task that no longer
needs execution, delete it and return `NotBlocked`; otherwise scan its
out-neighbors (reverse insertion order), propagating `Task`/`Finished`
immediately and collecting `Blocked`; then decide from the node itself. -/
def walk (ne : Task → Bool) : Nat → TasksGraph → WalkCall → Option (WalkOut × TasksGraph)
  | 0, _, _ => none
  | fuel + 1, g, .node n =>
    match g.lookup n with
    | none => none
    | some nd =>
      if walkAlready ne nd then some (.res .notBlocked, g.mark_as_completed n)
      else
        match walk ne fuel g (.list (g.outNeighbors n) false) with
        | none => none
        | some (.res r, g₁) => some (.res r, g₁)
        | some (.scanned blocked, g₁) =>
          if blocked then some (.res .blocked, g₁)
          else
            match g₁.lookup n with
            | none => none
            | some (.task _ true) => some (.res .blocked, g₁)
            | some (.task t false) => some (.res (.task n t), g₁.setRunning n)
            | some .crateCompleted => some (.res .notBlocked, g₁.mark_as_completed n)
            | some .root => some (.res .finished, g₁)
  | _ + 1, g, .list [] blocked => some (.scanned blocked, g)
  | fuel + 1, g, .list (c :: rest) blocked =>
    match walk ne fuel g (.node c) with
    | none => none
    | some (.res (.task i t), g₁) => some (.res (.task i t), g₁)
    | some (.res .finished, g₁) => some (.res .finished, g₁)
    | some (.res .blocked, g₁) => walk ne fuel g₁ (.list rest true)
    | some (.res .notBlocked, g₁) => walk ne fuel g₁ (.list rest blocked)
    | some (.scanned _, _) => none

/-- `TasksGraph::next_task`: walk from the root. -/
def next_task (ne : Task → Bool) (fuel : Nat) (g : TasksGraph) :
    Option (WalkResult × TasksGraph) :=
  match walk ne fuel g (.node g.root) with
  | some (.res r, g') => some (r, g')
  | some (.scanned _, _) => none
  | none => none

/-- Call shapes of the `mark_as_failed` recursion. -/
inductive MarkCall
  | node (n : Nat)
  | list (ns : List Nat)

/-- `TasksGraph::mark_as_failed` (src/run_graph.rs).  Recurse into every
incoming neighbor (dependent), then: a task node records the outcome via
`task.mark_as_failed` — modelled by emitting the task into the returned list —
and is deleted; crate-completed and root nodes return early, undeleted.
Indexing a deleted node (a panic in the source) and fuel exhaustion yield
`none`. -/
def mark_as_failed : Nat → TasksGraph → MarkCall → Option (TasksGraph × List Task)
  | 0, _, _ => none
  | fuel + 1, g, .node n =>
    match mark_as_failed fuel g (.list (g.inNeighbors n)) with
    | none => none
    | some (g₁, recs) =>
      match g₁.lookup n with
      | none => none
      | some (.task t _) => some (g₁.mark_as_completed n, recs ++ [t])
      | some .crateCompleted => some (g₁, recs)
      | some .root => some (g₁, recs)
  | _ + 1, g, .list [] => some (g, [])
  | fuel + 1, g, .list (c :: rest) =>
    match mark_as_failed fuel g (.node c) with
    | none => none
    | some (g₁, r₁) =>
      match mark_as_failed fuel g₁ (.list rest) with
      | none => none
      | some (g₂, r₂) => some (g₂, r₁ ++ r₂)

/-- The loop body of `build_graph` for one crate: skip it, or add a prepare
task, one task per toolchain (step chosen from the experiment mode and the
config, with `quiet` propagated) depending on prepare, and a crate-completed
node over the toolchain tasks. -/
def buildStep (ex : Experiment) (config : Config) (graph : TasksGraph) (krate : Crate) :
    TasksGraph :=
  if config.should_skip krate then graph
  else
    let (graph, prepare_id) := graph.add_task ⟨krate, .prepare⟩ []
    let quiet := config.is_quiet krate
    let (graph, builds) := ex.toolchains.foldl
      (fun (acc : TasksGraph × List Nat) tc =>
        let (graph, builds) := acc
        let (graph, build_id) := graph.add_task
          ⟨krate,
           match ex.mode with
           | .buildOnly => .buildOnly tc quiet
           | .buildAndTest =>
             if config.should_skip_tests krate then .buildOnly tc quiet
             else .buildAndTest tc quiet
           | .checkOnly => .checkOnly tc quiet
           | .unstableFeatures => .unstableFeatures tc⟩
          [prepare_id]
        (graph, builds ++ [build_id]))
      (graph, [])
    (graph.add_crate builds).1

/-- `build_graph` (src/run_graph.rs): fold the per-crate step over the
experiment's crates, starting from a fresh root-only graph. -/
def build_graph (ex : Experiment) (config : Config) : TasksGraph :=
  ex.crates.foldl (buildStep ex config) TasksGraph.new

/-- Experiment status (the `string_enum!` in src/experiments.rs). -/
inductive Status
  | queued
  | running
  | needsReport
  | generatingReport
  | reportFailed
  | completed
deriving DecidableEq

def Status.toStr : Status → String
  | .queued => "queued"
  | .running => "running"
  | .needsReport => "needs-report"
  | .generatingReport => "generating-report"
  | .reportFailed => "report-failed"
  | .completed => "completed"

def Status.fromStr (s : String) : Option Status :=
  if s = "queued" then some .queued
  else if s = "running" then some .running
  else if s = "needs-report" then some .needsReport
  else if s = "generating-report" then some .generatingReport
  else if s = "report-failed" then some .reportFailed
  else if s = "completed" then some .completed
  else none

/-- `GitHubIssue` (src/experiments.rs). -/
structure GitHubIssue where
  api_url : String
  html_url : String
  number : Int
deriving DecidableEq

/-- `ServerData` (src/experiments.rs); timestamps are modelled as naturals. -/
structure ServerData where
  priority : Int
  created_at : Nat
  started_at : Option Nat
  completed_at : Option Nat
  github_issue : Option GitHubIssue
  status : Status
  assigned_to : Option String
  report_url : Option String
deriving DecidableEq

/-- `ExperimentData` (src/experiments.rs). -/
structure ExperimentData where
  server_data : ServerData
  experiment : Experiment
deriving DecidableEq

/-- `ExperimentDBRecord` (src/experiments.rs): one raw row of the
`experiments` table. -/
structure ExperimentDBRecord where
  name : String
  mode : String
  cap_lints : String
  toolchain_start : String
  toolchain_end : String
  priority : Int
  created_at : Nat
  started_at : Option Nat
  completed_at : Option Nat
  github_issue : Option String
  github_issue_url : Option String
  github_issue_number : Option Int
  status : String
  assigned_to : Option String
  report_url : Option String
deriving DecidableEq

/-- The persistent store: the three tables of §6, rows in insertion order.
`experiment_crates` rows are `(experiment, crate_json, skipped)`; `results`
rows are keyed by `(experiment, crate, toolchain)`. -/
structure DB where
  experiments : List ExperimentDBRecord
  experiment_crates : List (String × String × Bool)
  results : List (String × String × String)
deriving DecidableEq

/-- `UPDATE experiments SET … WHERE name = ?`: apply the column update to
every row whose name matches. -/
def DB.updateByName (db : DB) (name : String)
    (f : ExperimentDBRecord → ExperimentDBRecord) : DB :=
  { db with experiments := db.experiments.map fun r => if r.name = name then f r else r }

/-- `SELECT crate FROM experiment_crates WHERE experiment = ?1`, in scan
(insertion) order. -/
def DB.cratesOf (db : DB) (name : String) : List Crate :=
  (db.experiment_crates.filter fun c => c.1 = name).map fun c => c.2.1

/-- `ExperimentDBRecord::into_experiment_data` (src/experiments.rs).  Crate,
toolchain and cap-lints parsing are modelled as total (the identifiers are
opaque strings, §3); status and mode parsing can fail, making the whole load
fail.  The `github_issue` field is assembled only when all three of its
columns are non-null. -/
def ExperimentDBRecord.into_experiment_data (r : ExperimentDBRecord) (db : DB) :
    Option ExperimentData :=
  match Status.fromStr r.status, ExMode.fromStr r.mode with
  | some status, some mode =>
    some
      { experiment :=
          { name := r.name
            crates := db.cratesOf r.name
            tc_start := r.toolchain_start
            tc_end := r.toolchain_end
            mode := mode
            cap_lints := r.cap_lints }
        server_data :=
          { priority := r.priority
            created_at := r.created_at
            started_at := r.started_at
            completed_at := r.completed_at
            github_issue :=
              match r.github_issue, r.github_issue_url, r.github_issue_number with
              | some api_url, some html_url, some number =>
                some { api_url := api_url, html_url := html_url, number := number }
              | _, _, _ => none
            status := status
            assigned_to := r.assigned_to
            report_url := r.report_url } }
  | _, _ => none

/-- `ExperimentData::set_status` (src/experiments.rs): update the status
column; then, if the new status is Running and no start date is set, stamp
`started_at := now`; otherwise, if the old status was Running and no
completion date is set, stamp `completed_at := now`.  `now` models
`Utc::now()`. -/
def ExperimentData.set_status (self : ExperimentData) (db : DB) (status : Status)
    (now : Nat) : ExperimentData × DB :=
  let db := db.updateByName self.experiment.name fun r => { r with status := status.toStr }
  if status = .running ∧ self.server_data.started_at = none then
    let db := db.updateByName self.experiment.name fun r => { r with started_at := some now }
    ({ self with server_data :=
        { self.server_data with started_at := some now, status := status } }, db)
  else if self.server_data.status = .running ∧ self.server_data.completed_at = none then
    let db := db.updateByName self.experiment.name fun r => { r with completed_at := some now }
    ({ self with server_data :=
        { self.server_data with completed_at := some now, status := status } }, db)
  else
    ({ self with server_data := { self.server_data with status := status } }, db)

/-- `ExperimentData::set_assigned_to` (src/experiments.rs). -/
def ExperimentData.set_assigned_to (self : ExperimentData) (db : DB)
    (assigned_to : Option String) : ExperimentData × DB :=
  ({ self with server_data := { self.server_data with assigned_to := assigned_to } },
   db.updateByName self.experiment.name fun r => { r with assigned_to := assigned_to })

/-- `ExperimentData::set_start_toolchain` (src/experiments.rs): assign
`toolchains[0]` in memory first, then validate; a validation failure is
returned with the in-memory assignment already made and the database
untouched; on success the column is persisted. -/
def ExperimentData.set_start_toolchain (self : ExperimentData) (db : DB)
    (start : Toolchain) : Except Unit Unit × ExperimentData × DB :=
  let self := { self with experiment := { self.experiment with tc_start := start } }
  match self.experiment.validate with
  | .error e => (.error e, self, db)
  | .ok _ =>
    (.ok (), self,
     db.updateByName self.experiment.name fun r =>
       { r with toolchain_start := self.experiment.tc_start })

/-- `ExperimentData::set_end_toolchain` (src/experiments.rs): the symmetric
operation on `toolchains[1]`. -/
def ExperimentData.set_end_toolchain (self : ExperimentData) (db : DB)
    (tcEnd : Toolchain) : Except Unit Unit × ExperimentData × DB :=
  let self := { self with experiment := { self.experiment with tc_end := tcEnd } }
  match self.experiment.validate with
  | .error e => (.error e, self, db)
  | .ok _ =>
    (.ok (), self,
     db.updateByName self.experiment.name fun r =>
       { r with toolchain_end := self.experiment.tc_end })

/-- `ExperimentData::raw_progress` (src/experiments.rs): the `COUNT(*)` of
results rows for the experiment, and twice the count of its non-skipped
experiment_crates rows. -/
def ExperimentData.raw_progress (self : ExperimentData) (db : DB) : Nat × Nat :=
  let results_len := (db.results.filter fun r => r.1 = self.experiment.name).length
  let crates_len :=
    (db.experiment_crates.filter fun c => c.1 = self.experiment.name ∧ c.2.2 = false).length
  (results_len, crates_len * 2)

/-- Round half to even: the rounding of a rational to an integer used by
IEEE-754 round-to-nearest. -/
def rhe (q : ℚ) : ℤ :=
  if q - ⌊q⌋ < 1 / 2 then ⌊q⌋
  else if 1 / 2 < q - ⌊q⌋ then ⌊q⌋ + 1
  else if Even ⌊q⌋ then ⌊q⌋ else ⌊q⌋ + 1

def f32expAux (q : ℚ) : Nat → ℤ → ℤ
  | 0, e => e
  | fuel + 1, e => if q < 2 ^ (e + 1) then e else f32expAux q fuel (e + 1)

/-- The binary exponent of a positive rational: the unique `e` with
`2 ^ e ≤ q < 2 ^ (e + 1)`, searched over the range `[-151, 152]` that covers
every quantity arising in `progress`. -/
def f32exp (q : ℚ) : ℤ := f32expAux q 303 (-151)

/-- Binary32 round-to-nearest-even on nonnegative rationals in the normal
range: round the 24-bit significand half-to-even.  This models every `f32`
value produced by `progress`, whose quantities lie well inside the normal
range (subnormals and overflow cannot arise there). -/
def roundF32 (q : ℚ) : ℚ :=
  if q ≤ 0 then 0
  else (rhe (q * 2 ^ (23 - f32exp q)) : ℚ) * 2 ^ (f32exp q - 23)

/-- `f32` multiplication: exact product, then binary32 rounding. -/
def f32mul (a b : ℚ) : ℚ := roundF32 (a * b)

/-- `f32` division: exact quotient, then binary32 rounding. -/
def f32div (a b : ℚ) : ℚ := roundF32 (a / b)

/-- `u32 as f32`: binary32 rounding of the integer. -/
def f32ofNat (n : Nat) : ℚ := roundF32 n

/-- `f32::ceil`: exact, since the ceiling of a binary32 value is
representable. -/
def f32ceil (q : ℚ) : ℚ := (⌈q⌉ : ℚ)

/-- Rust `as u8` on an `f32`: saturating cast — truncate toward zero and
clamp into `[0, 255]`. -/
def u8ofF32 (q : ℚ) : Nat :=
  if q ≤ 0 then 0 else if (255 : ℚ) ≤ q then 255 else (⌊q⌋).toNat

/-- `ExperimentData::progress` (src/experiments.rs):
`(results_len as f32 * 100.0 / crates_len as f32).ceil() as u8` when the
total is nonzero, else 0; each arithmetic step rounds in binary32. -/
def ExperimentData.progress (self : ExperimentData) (db : DB) : Nat :=
  let raw := self.raw_progress db
  if raw.2 ≠ 0 then
    u8ofF32 (f32ceil (f32div (f32mul (f32ofNat raw.1) 100) (f32ofNat raw.2)))
  else 0

/-- The first row of `SELECT * FROM experiments WHERE status = "running" AND
assigned_to = ?1` (no ordering: scan order). -/
def DB.run_by_agent_row (db : DB) (agent : String) : Option ExperimentDBRecord :=
  db.experiments.find? fun r => r.status = "running" ∧ r.assigned_to = some agent

/-- `Experiments::run_by_agent` (src/experiments.rs); `.error` models a row
that fails to load. -/
def Experiments.run_by_agent (db : DB) (agent : String) :
    Except Unit (Option ExperimentData) :=
  match db.run_by_agent_row agent with
  | none => .ok none
  | some r =>
    match r.into_experiment_data db with
    | none => .error ()
    | some e => .ok (some e)

/-- Strictly earlier under `ORDER BY priority DESC, created_at ASC`. -/
def queueBefore (a b : ExperimentDBRecord) : Bool :=
  b.priority < a.priority ∨ (a.priority = b.priority ∧ a.created_at < b.created_at)

/-- One scan step of the queued-row selection: keep the best row so far,
replacing it only on a strictly better key, so ties keep the earlier row. -/
def queueStep (best : Option ExperimentDBRecord) (r : ExperimentDBRecord) :
    Option ExperimentDBRecord :=
  if r.status = "queued" then
    match best with
    | none => some r
    | some b => if queueBefore r b then some r else some b
  else best

/-- The first row of `SELECT * FROM experiments WHERE status = "queued" ORDER
BY priority DESC, created_at`. -/
def DB.first_queued_row (db : DB) : Option ExperimentDBRecord :=
  db.experiments.foldl queueStep none

/-- `Experiments::next` (src/experiments.rs): return the agent's running
experiment if it has one; otherwise load the best queued row, set its status
to Running and then its assignee (both persisted, in that order), and return
it as new. -/
def Experiments.next (db : DB) (agent : String) (now : Nat) :
    Except Unit (Option (Bool × ExperimentData) × DB) :=
  match Experiments.run_by_agent db agent with
  | .error e => .error e
  | .ok (some e) => .ok (some (false, e), db)
  | .ok none =>
    match db.first_queued_row with
    | none => .ok (none, db)
    | some r =>
      match r.into_experiment_data db with
      | none => .error ()
      | some e =>
        let (e, db) := e.set_status db .running now
        let (e, db) := e.set_assigned_to db (some agent)
        .ok (some (true, e), db)

/-- One scheduler operation on the shared graph: a `next_task` call with the
given fuel, a `mark_as_completed`, or a `mark_as_failed`. -/
inductive GraphOp
  | next (fuel : Nat)
  | complete (n : Nat)
  | fail (fuel : Nat) (n : Nat)
deriving DecidableEq

/-- Run a sequence of graph operations, collecting the results of the
`next_task` calls. -/
def runOps (ne : Task → Bool) : List GraphOp → TasksGraph → Option (List WalkResult × TasksGraph)
  | [], g => some ([], g)
  | .next fuel :: ops, g =>
    match next_task ne fuel g with
    | none => none
    | some (r, g₁) =>
      match runOps ne ops g₁ with
      | none => none
      | some (rs, g₂) => some (r :: rs, g₂)
  | .complete n :: ops, g => runOps ne ops (g.mark_as_completed n)
  | .fail fuel n :: ops, g =>
    match mark_as_failed fuel g (.node n) with
    | none => none
    | some (g₁, _) => runOps ne ops g₁

/-- The sequence performs no `mark_as_completed` or `mark_as_failed` on node
`i`. -/
def avoidsMark (ops : List GraphOp) (i : Nat) : Prop :=
  ∀ op ∈ ops,
    match op with
    | .complete j => j ≠ i
    | .fail _ j => j ≠ i
    | .next _ => True

/-- Out-neighbors in edge insertion order, as the specification's ordering
sentence describes (for comparison with petgraph's actual reverse order). -/
def TasksGraph.outNeighborsInsertion (g : TasksGraph) (n : Nat) : List Nat :=
  edgeTargets g.edges n

/-- The walk as the specification's ordering sentence describes it, scanning
children in edge insertion order; identical to `walk` otherwise. -/
def walkInsertion (ne : Task → Bool) :
    Nat → TasksGraph → WalkCall → Option (WalkOut × TasksGraph)
  | 0, _, _ => none
  | fuel + 1, g, .node n =>
    match g.lookup n with
    | none => none
    | some nd =>
      if walkAlready ne nd then some (.res .notBlocked, g.mark_as_completed n)
      else
        match walkInsertion ne fuel g (.list (g.outNeighborsInsertion n) false) with
        | none => none
        | some (.res r, g₁) => some (.res r, g₁)
        | some (.scanned blocked, g₁) =>
          if blocked then some (.res .blocked, g₁)
          else
            match g₁.lookup n with
            | none => none
            | some (.task _ true) => some (.res .blocked, g₁)
            | some (.task t false) => some (.res (.task n t), g₁.setRunning n)
            | some .crateCompleted => some (.res .notBlocked, g₁.mark_as_completed n)
            | some .root => some (.res .finished, g₁)
  | _ + 1, g, .list [] blocked => some (.scanned blocked, g)
  | fuel + 1, g, .list (c :: rest) blocked =>
    match walkInsertion ne fuel g (.node c) with
    | none => none
    | some (.res (.task i t), g₁) => some (.res (.task i t), g₁)
    | some (.res .finished, g₁) => some (.res .finished, g₁)
    | some (.res .blocked, g₁) => walkInsertion ne fuel g₁ (.list rest true)
    | some (.res .notBlocked, g₁) => walkInsertion ne fuel g₁ (.list rest blocked)
    | some (.scanned _, _) => none

/-- `next_task` under the insertion-order scan. -/
def next_task_insertion (ne : Task → Bool) (fuel : Nat) (g : TasksGraph) :
    Option (WalkResult × TasksGraph) :=
  match walkInsertion ne fuel g (.node g.root) with
  | some (.res r, g') => some (r, g')
  | some (.scanned _, _) => none
  | none => none

/-- `j` is `n` itself or an ancestor of `n` along incoming edges (a transitive
dependent of `n`). -/
inductive Anc (g : TasksGraph) : Nat → Nat → Prop
  | refl (n : Nat) : Anc g n n
  | head {n a j : Nat} : (a, n) ∈ g.edges → Anc g a j → Anc g n j

/-- The node at `i` is a task node. -/
def isTaskAt (g : TasksGraph) (i : Nat) : Prop :=
  ∃ t r, g.lookup i = some (.task t r)

/-- `j` is an incoming-edge ancestor of the source of a `mark_as_failed`
call: of the node itself for a `.node` call, of some listed child for a
`.list` call. -/
def srcAnc (g : TasksGraph) : MarkCall → Nat → Prop
  | .node n, j => Anc g n j
  | .list cs, j => ∃ c ∈ cs, Anc g c j

/-- The step `build_graph` chooses for a crate and toolchain, as a function
(specification of the `match ex.mode` in the source). -/
def stepFor (mode : ExMode) (config : Config) (krate : Crate) (tc : Toolchain) : TaskStep :=
  match mode with
  | .buildOnly => .buildOnly tc (config.is_quiet krate)
  | .buildAndTest =>
    if config.should_skip_tests krate then .buildOnly tc (config.is_quiet krate)
    else .buildAndTest tc (config.is_quiet krate)
  | .checkOnly => .checkOnly tc (config.is_quiet krate)
  | .unstableFeatures => .unstableFeatures tc

/-- The four nodes `build_graph` appends for one non-skipped crate, starting
at id `base`. -/
def crateChunk (ex : Experiment) (config : Config) (base : Nat) (c : Crate) :
    List (Nat × Node) :=
  [(base, .task ⟨c, .prepare⟩ false),
   (base + 1, .task ⟨c, stepFor ex.mode config c ex.tc_start⟩ false),
   (base + 2, .task ⟨c, stepFor ex.mode config c ex.tc_end⟩ false),
   (base + 3, .crateCompleted)]

/-- The five edges `build_graph` appends for one non-skipped crate. -/
def crateChunkEdges (root base : Nat) : List (Nat × Nat) :=
  [(base + 1, base), (base + 2, base), (base + 3, base + 1), (base + 3, base + 2),
   (root, base + 3)]

/-- All nodes appended by `build_graph` for a crate list, with ids starting at
`base`. -/
def chunksNodes (ex : Experiment) (config : Config) : List Crate → Nat → List (Nat × Node)
  | [], _ => []
  | c :: rest, base =>
    if config.should_skip c then chunksNodes ex config rest base
    else crateChunk ex config base c ++ chunksNodes ex config rest (base + 4)

/-- All edges appended by `build_graph` for a crate list. -/
def chunksEdges (config : Config) (root : Nat) : List Crate → Nat → List (Nat × Nat)
  | [], _ => []
  | c :: rest, base =>
    if config.should_skip c then chunksEdges config root rest base
    else crateChunkEdges root base ++ chunksEdges config root rest (base + 4)

/-- Keys of an association list are all below a bound (the fresh-id
invariant). -/
def keysBelow (l : List (Nat × Node)) (n : Nat) : Prop :=
  ∀ p ∈ l, p.1 < n

/-- A `needs_exec` oracle that always answers true (nothing recorded yet). -/
def neAll : Task → Bool := fun _ => true

/-- A config that skips nothing, quiets nothing, and breaks nothing. -/
def cfg0 : Config :=
  { should_skip := fun _ => false
    should_skip_tests := fun _ => false
    is_quiet := fun _ => false
    is_broken := fun _ => false }

/-- A one-crate build-only experiment. -/
def exOne : Experiment :=
  { name := "e", crates := ["c"], tc_start := "a", tc_end := "b"
    mode := .buildOnly, cap_lints := "forbid" }

/-- A two-crate build-only experiment. -/
def exTwo : Experiment :=
  { name := "e", crates := ["c1", "c2"], tc_start := "a", tc_end := "b"
    mode := .buildOnly, cap_lints := "forbid" }

def gOne : TasksGraph := build_graph exOne cfg0

def gTwo : TasksGraph := build_graph exTwo cfg0

/-- `gOne` after `mark_as_failed` on its first toolchain task (node 2). -/
def gOneMarked : TasksGraph :=
  { nodes := [(0, .root), (1, .task ⟨"c", .prepare⟩ false),
              (3, .task ⟨"c", .buildOnly "b" false⟩ false), (4, .crateCompleted)]
    edges := [(3, 1), (4, 3), (0, 4)]
    root := 0
    nextId := 5 }

/-- An empty database. -/
def exDB0 : DB := { experiments := [], experiment_crates := [], results := [] }

/-- A queued experiments-table row named "test" with priority 0. -/
def recTest : ExperimentDBRecord :=
  { name := "test", mode := "build-only", cap_lints := "forbid"
    toolchain_start := "a", toolchain_end := "b", priority := 0, created_at := 0
    started_at := none, completed_at := none, github_issue := none
    github_issue_url := none, github_issue_number := none, status := "queued"
    assigned_to := none, report_url := none }

/-- A queued experiments-table row named "important" with priority 10. -/
def recImportant : ExperimentDBRecord :=
  { recTest with name := "important", priority := 10, created_at := 1 }

/-- A database holding the two queued rows. -/
def exDBQ : DB := { experiments := [recTest, recImportant], experiment_crates := [], results := [] }

/-- What loading `recImportant` from `exDBQ` yields. -/
def exImportant : ExperimentData :=
  { experiment :=
      { name := "important", crates := [], tc_start := "a", tc_end := "b"
        mode := .buildOnly, cap_lints := "forbid" }
    server_data :=
      { priority := 10, created_at := 1, started_at := none, completed_at := none
        github_issue := none, status := .queued, assigned_to := none
        report_url := none } }

/-- An in-memory experiment in the Running state with a start date but no
completion date. -/
def exRun : ExperimentData :=
  { experiment := exOne
    server_data :=
      { priority := 0, created_at := 0, started_at := some 1, completed_at := none
        github_issue := none, status := .running, assigned_to := some "agent-1"
        report_url := none } }

/-- A queued in-memory experiment with toolchains "a" and "b". -/
def exQ : ExperimentData :=
  { experiment := exOne
    server_data :=
      { priority := 0, created_at := 0, started_at := none, completed_at := none
        github_issue := none, status := .queued, assigned_to := none
        report_url := none } }

/-- A database with 600 results rows and 100 non-skipped crates rows for
experiment "e". -/
def exDBbig : DB :=
  { experiments := []
    experiment_crates := List.replicate 100 ("e", "c", false)
    results := List.replicate 600 ("e", "c", "ta") }

/-- A database with one results row and one non-skipped crates row for
experiment "e". -/
def exDBsmall : DB :=
  { experiments := []
    experiment_crates := [("e", "c", false)]
    results := [("e", "c", "ta")] }

/-- A raw row whose github-issue columns are only partially set. -/
def exRecPartial : ExperimentDBRecord :=
  { recTest with name := "e", github_issue := some "u" }

/-- Node `i` is a running task or has been deleted: the states from which the
walk can never select `i` again. -/
def runningOrGone (g : TasksGraph) (i : Nat) : Prop :=
  (∃ t, g.lookup i = some (.task t true)) ∨ g.lookup i = none

/-- `gOne` after its prepare task (node 1) has been handed out by
`next_task`. -/
def gOneRunning : TasksGraph :=
  { nodes := [(0, .root), (1, .task ⟨"c", .prepare⟩ true),
              (2, .task ⟨"c", .buildOnly "a" false⟩ false),
              (3, .task ⟨"c", .buildOnly "b" false⟩ false), (4, .crateCompleted)]
    edges := [(2, 1), (3, 1), (4, 2), (4, 3), (0, 4)]
    root := 0
    nextId := 5 }

/-! ### Lemmas about the association-list graph representation -/

theorem lookupNodes_append (l₁ l₂ : List (Nat × Node)) (i : Nat) :
    lookupNodes (l₁ ++ l₂) i =
      match lookupNodes l₁ i with
      | some v => some v
      | none => lookupNodes l₂ i := by
  induction l₁ with
  | nil => simp [lookupNodes]
  | cons p rest ih =>
    obtain ⟨j, nd⟩ := p
    by_cases h : j = i <;> simp [lookupNodes, h, ih]

theorem lookupNodes_removeKey (l : List (Nat × Node)) (i j : Nat) :
    lookupNodes (removeKey l j) i = if i = j then none else lookupNodes l i := by
  induction l with
  | nil => simp [removeKey, lookupNodes]
  | cons p rest ih =>
    obtain ⟨k, nd⟩ := p
    by_cases hij : i = j
    · subst hij
      by_cases hk : k = i
      · simp [removeKey, hk, ih]
      · simp [removeKey, hk, lookupNodes, ih]
    · by_cases hk : k = j
      · have hki : ¬k = i := by omega
        have hji : ¬j = i := by omega
        simp [removeKey, hk, ih, hij, lookupNodes, hki, hji]
      · by_cases hki : k = i
        · simp [removeKey, hk, lookupNodes, hki, hij]
        · simp [removeKey, hk, lookupNodes, hki, ih, hij]

theorem lookup_removeNode (g : TasksGraph) (i j : Nat) :
    (g.removeNode j).lookup i = if i = j then none else g.lookup i := by
  simp [TasksGraph.removeNode, TasksGraph.lookup, lookupNodes_removeKey]

theorem lookupNodes_setRunningKey (l : List (Nat × Node)) (i j : Nat) :
    lookupNodes (setRunningKey l j) i =
      if i = j then
        (lookupNodes l i).map fun nd =>
          match nd with
          | .task t _ => .task t true
          | other => other
      else lookupNodes l i := by
  induction l with
  | nil => simp [setRunningKey, lookupNodes]
  | cons p rest ih =>
    obtain ⟨k, nd⟩ := p
    by_cases hij : i = j
    · subst hij
      by_cases hk : k = i
      · simp [setRunningKey, hk, lookupNodes, ih]
      · simp [setRunningKey, hk, lookupNodes, ih]
    · by_cases hk : k = j
      · have hki : ¬k = i := by omega
        have hji : ¬j = i := by omega
        simp [setRunningKey, hk, ih, hij, lookupNodes, hki, hji]
      · by_cases hki : k = i
        · simp [setRunningKey, hk, lookupNodes, hki, hij]
        · simp [setRunningKey, hk, lookupNodes, hki, ih, hij]

theorem lookup_setRunning (g : TasksGraph) (i j : Nat) :
    (g.setRunning j).lookup i =
      if i = j then
        (g.lookup i).map fun nd =>
          match nd with
          | .task t _ => .task t true
          | other => other
      else g.lookup i := by
  simp [TasksGraph.setRunning, TasksGraph.lookup, lookupNodes_setRunningKey]

theorem mem_removeIncident (l : List (Nat × Nat)) (i : Nat) (e : Nat × Nat) :
    e ∈ removeIncident l i ↔ e ∈ l ∧ e.1 ≠ i ∧ e.2 ≠ i := by
  induction l with
  | nil => simp [removeIncident]
  | cons p rest ih =>
    obtain ⟨a, b⟩ := p
    by_cases h : a = i ∨ b = i
    · simp only [removeIncident, if_pos h, ih, List.mem_cons]
      constructor
      · rintro ⟨he, h1, h2⟩; exact ⟨Or.inr he, h1, h2⟩
      · rintro ⟨he | he, h1, h2⟩
        · subst he; rcases h with h | h
          · exact absurd h h1
          · exact absurd h h2
        · exact ⟨he, h1, h2⟩
    · simp only [removeIncident, if_neg h, List.mem_cons, ih]
      push_neg at h
      constructor
      · rintro (rfl | ⟨he, h1, h2⟩)
        · exact ⟨Or.inl rfl, h.1, h.2⟩
        · exact ⟨Or.inr he, h1, h2⟩
      · rintro ⟨rfl | he, h1, h2⟩
        · exact Or.inl rfl
        · exact Or.inr ⟨he, h1, h2⟩

theorem mem_edgeSources (l : List (Nat × Nat)) (n a : Nat) :
    a ∈ edgeSources l n ↔ (a, n) ∈ l := by
  induction l with
  | nil => simp [edgeSources]
  | cons p rest ih =>
    obtain ⟨x, y⟩ := p
    simp only [edgeSources]
    by_cases h : y = n
    · subst h
      simp [List.mem_cons, ih, Prod.mk.injEq]
    · have h' : ¬n = y := fun hh => h hh.symm
      simp [h, ih, List.mem_cons, Prod.mk.injEq, h']

theorem mem_inNeighbors (g : TasksGraph) (n a : Nat) :
    a ∈ g.inNeighbors n ↔ (a, n) ∈ g.edges := by
  simp [TasksGraph.inNeighbors, mem_edgeSources]

/-! ### Characterization of `build_graph` -/

theorem buildStep_skip (ex : Experiment) (config : Config) (g : TasksGraph) (c : Crate)
    (h : config.should_skip c = true) : buildStep ex config g c = g := by
  simp [buildStep, h]

theorem buildStep_char (ex : Experiment) (config : Config) (g : TasksGraph) (c : Crate)
    (h : config.should_skip c = false) :
    buildStep ex config g c =
      { nodes := g.nodes ++ crateChunk ex config g.nextId c
        edges := g.edges ++ crateChunkEdges g.root g.nextId
        root := g.root
        nextId := g.nextId + 4 } := by
  cases hm : ex.mode <;>
    simp [buildStep, h, Experiment.toolchains, TasksGraph.add_task, TasksGraph.add_node,
      TasksGraph.add_crate, crateChunk, crateChunkEdges, stepFor, hm, List.append_assoc]

theorem foldl_buildStep_char (ex : Experiment) (config : Config) :
    ∀ (crates : List Crate) (g : TasksGraph),
      crates.foldl (buildStep ex config) g =
        { nodes := g.nodes ++ chunksNodes ex config crates g.nextId
          edges := g.edges ++ chunksEdges config g.root crates g.nextId
          root := g.root
          nextId :=
            g.nextId + 4 * (crates.filter fun c => config.should_skip c = false).length } := by
  intro crates
  induction crates with
  | nil => intro g; simp [chunksNodes, chunksEdges]
  | cons c rest ih =>
    intro g
    by_cases h : config.should_skip c
    · rw [List.foldl_cons, buildStep_skip ex config g c h, ih]
      simp [chunksNodes, chunksEdges, h, List.filter_cons]
    · have h' : config.should_skip c = false := by simpa using h
      rw [List.foldl_cons, buildStep_char ex config g c h', ih]
      simp [chunksNodes, chunksEdges, h', List.filter_cons, List.append_assoc,
        TasksGraph.mk.injEq] <;> omega

theorem build_graph_char (ex : Experiment) (config : Config) :
    build_graph ex config =
      { nodes := (0, .root) :: chunksNodes ex config ex.crates 1
        edges := chunksEdges config 0 ex.crates 1
        root := 0
        nextId :=
          1 + 4 * (ex.crates.filter fun c => config.should_skip c = false).length } := by
  rw [build_graph, foldl_buildStep_char]
  simp [TasksGraph.new]

theorem stepFor_ne_prepare (mode : ExMode) (config : Config) (c : Crate) (tc : Toolchain) :
    stepFor mode config c tc ≠ .prepare := by
  cases mode <;> simp [stepFor] <;> split <;> simp

theorem chunksNodes_length (ex : Experiment) (config : Config) :
    ∀ (crates : List Crate) (base : Nat),
      (chunksNodes ex config crates base).length =
        4 * (crates.filter fun c => config.should_skip c = false).length := by
  intro crates
  induction crates with
  | nil => intro base; simp [chunksNodes]
  | cons c rest ih =>
    intro base
    by_cases h : config.should_skip c
    · simp [chunksNodes, h, List.filter_cons, ih]
    · have h' : config.should_skip c = false := by simpa using h
      simp [chunksNodes, h', List.filter_cons, ih, crateChunk]
      omega

theorem chunksNodes_countP (ex : Experiment) (config : Config) (pr : Nat × Node → Bool)
    (k : Nat)
    (hchunk : ∀ base c, config.should_skip c = false →
      (crateChunk ex config base c).countP pr = k) :
    ∀ (crates : List Crate) (base : Nat),
      (chunksNodes ex config crates base).countP pr =
        k * (crates.filter fun c => config.should_skip c = false).length := by
  intro crates
  induction crates with
  | nil => intro base; simp [chunksNodes]
  | cons c rest ih =>
    intro base
    by_cases h : config.should_skip c
    · simp only [chunksNodes, if_pos h, List.filter_cons]
      rw [ih base]
      simp [h]
    · have h' : config.should_skip c = false := by simpa using h
      simp only [chunksNodes, h', Bool.false_eq_true, if_false, List.countP_append,
        List.filter_cons]
      rw [ih (base + 4), hchunk base c h']
      simp [h']
      ring

/-- Claim C7: for every experiment and config the graph built by `build_graph`
for an experiment with `k` non-skipped packages (and its two toolchains)
contains exactly `4k + 1` nodes: the root, plus one prepare task, two
toolchain-step tasks and one crate-completed node per non-skipped package;
skipped packages contribute no nodes. -/
theorem build_graph_node_count (ex : Experiment) (config : Config) :
    ((build_graph ex config).nodes.length =
      4 * (ex.crates.filter fun c => config.should_skip c = false).length + 1) ∧
    ((build_graph ex config).nodes.countP (fun p => p.2 = Node.root) = 1) ∧
    ((build_graph ex config).nodes.countP
        (fun p => match p.2 with | .task t _ => t.step = .prepare | _ => false) =
      (ex.crates.filter fun c => config.should_skip c = false).length) ∧
    ((build_graph ex config).nodes.countP
        (fun p => match p.2 with | .task t _ => t.step ≠ .prepare | _ => false) =
      2 * (ex.crates.filter fun c => config.should_skip c = false).length) ∧
    ((build_graph ex config).nodes.countP (fun p => p.2 = Node.crateCompleted) =
      (ex.crates.filter fun c => config.should_skip c = false).length) := by
  rw [build_graph_char]
  refine ⟨?_, ?_, ?_, ?_, ?_⟩
  · simp only [List.length_cons, chunksNodes_length]
  · rw [List.countP_cons,
      chunksNodes_countP ex config _ 0 (fun base c h => by simp [crateChunk, List.countP_cons])]
    simp
  · rw [List.countP_cons,
      chunksNodes_countP ex config _ 1 (fun base c h => by
        simp [crateChunk, List.countP_cons, stepFor_ne_prepare])]
    simp
  · rw [List.countP_cons,
      chunksNodes_countP ex config _ 2 (fun base c h => by
        simp [crateChunk, List.countP_cons, stepFor_ne_prepare])]
    simp [Nat.mul_comm]
  · rw [List.countP_cons,
      chunksNodes_countP ex config _ 1 (fun base c h => by simp [crateChunk, List.countP_cons])]
    simp

theorem crateChunk_lookup_none (ex : Experiment) (config : Config) (base : Nat) (c : Crate)
    (k : Nat) (h : base + 4 ≤ k) :
    lookupNodes (crateChunk ex config base c) k = none := by
  have h0 : ¬base = k := by omega
  have h1 : ¬base + 1 = k := by omega
  have h2 : ¬base + 2 = k := by omega
  have h3 : ¬base + 3 = k := by omega
  simp [crateChunk, lookupNodes, h0, h1, h2, h3]

theorem chunks_found (ex : Experiment) (config : Config) (c : Crate)
    (hskip : config.should_skip c = false) :
    ∀ (crates : List Crate) (base root : Nat), c ∈ crates →
      ∃ b, base ≤ b ∧
        lookupNodes (chunksNodes ex config crates base) b =
          some (.task ⟨c, .prepare⟩ false) ∧
        lookupNodes (chunksNodes ex config crates base) (b + 1) =
          some (.task ⟨c, stepFor ex.mode config c ex.tc_start⟩ false) ∧
        lookupNodes (chunksNodes ex config crates base) (b + 2) =
          some (.task ⟨c, stepFor ex.mode config c ex.tc_end⟩ false) ∧
        (b + 1, b) ∈ chunksEdges config root crates base ∧
        (b + 2, b) ∈ chunksEdges config root crates base := by
  intro crates
  induction crates with
  | nil => intro base root hmem; simp at hmem
  | cons c' rest ih =>
    intro base root hmem
    rcases List.mem_cons.mp hmem with rfl | hmem
    · have e1 : ¬base = base + 1 := by omega
      have e2 : ¬base = base + 2 := by omega
      have e3 : ¬base + 1 = base + 2 := by omega
      refine ⟨base, le_refl _, ?_, ?_, ?_, ?_, ?_⟩ <;>
        simp [chunksNodes, chunksEdges, hskip, lookupNodes_append, crateChunk,
          crateChunkEdges, lookupNodes, e1, e2, e3]
    · by_cases h : config.should_skip c'
      · simp only [chunksNodes, chunksEdges, if_pos h]
        exact ih base root hmem
      · have h' : config.should_skip c' = false := by simpa using h
        obtain ⟨b, hb, h1, h2, h3, he1, he2⟩ := ih (base + 4) root hmem
        refine ⟨b, by omega, ?_, ?_, ?_, ?_, ?_⟩ <;>
          simp only [chunksNodes, chunksEdges, h', Bool.false_eq_true, if_false,
            lookupNodes_append, List.mem_append]
        · rw [crateChunk_lookup_none ex config base c' b (by omega)]
          exact h1
        · rw [crateChunk_lookup_none ex config base c' (b + 1) (by omega)]
          exact h2
        · rw [crateChunk_lookup_none ex config base c' (b + 2) (by omega)]
          exact h3
        · exact Or.inr he1
        · exact Or.inr he2

/-- Claim C9: for every non-skipped package, `build_graph` creates one task
node per toolchain whose step is selected from the experiment mode —
`BuildOnly` mode gives `BuildOnly{tc, quiet}`; `BuildAndTest` gives
`BuildOnly{tc, quiet}` when tests are skipped for the package and
`BuildAndTest{tc, quiet}` otherwise; `CheckOnly` gives `CheckOnly{tc, quiet}`;
`UnstableFeatures` gives `UnstableFeatures{tc}` — with
`quiet = config.is_quiet(p)` propagated into the variants that carry it, and
each toolchain node has a dependency edge to the package's `Prepare` node. -/
theorem build_graph_step_selection (ex : Experiment) (config : Config) (c : Crate)
    (hmem : c ∈ ex.crates) (hskip : config.should_skip c = false) :
    ∃ p b₁ b₂,
      (build_graph ex config).lookup p = some (.task ⟨c, .prepare⟩ false) ∧
      (build_graph ex config).lookup b₁ =
        some (.task ⟨c,
          match ex.mode with
          | .buildOnly => .buildOnly ex.tc_start (config.is_quiet c)
          | .buildAndTest =>
            if config.should_skip_tests c then .buildOnly ex.tc_start (config.is_quiet c)
            else .buildAndTest ex.tc_start (config.is_quiet c)
          | .checkOnly => .checkOnly ex.tc_start (config.is_quiet c)
          | .unstableFeatures => .unstableFeatures ex.tc_start⟩ false) ∧
      (build_graph ex config).lookup b₂ =
        some (.task ⟨c,
          match ex.mode with
          | .buildOnly => .buildOnly ex.tc_end (config.is_quiet c)
          | .buildAndTest =>
            if config.should_skip_tests c then .buildOnly ex.tc_end (config.is_quiet c)
            else .buildAndTest ex.tc_end (config.is_quiet c)
          | .checkOnly => .checkOnly ex.tc_end (config.is_quiet c)
          | .unstableFeatures => .unstableFeatures ex.tc_end⟩ false) ∧
      (b₁, p) ∈ (build_graph ex config).edges ∧
      (b₂, p) ∈ (build_graph ex config).edges := by
  obtain ⟨b, hb, h1, h2, h3, he1, he2⟩ :=
    chunks_found ex config c hskip ex.crates 1 0 hmem
  have h0 : ¬(0 : Nat) = b := by omega
  have h0' : ¬(0 : Nat) = b + 1 := by omega
  have h0'' : ¬(0 : Nat) = b + 2 := by omega
  refine ⟨b, b + 1, b + 2, ?_, ?_, ?_, ?_, ?_⟩ <;>
    rw [build_graph_char] <;> simp only [TasksGraph.lookup, lookupNodes, h0, h0', h0'',
      if_false]
  · exact h1
  · exact h2
  · exact h3
  · exact he1
  · exact he2

/-- Witness for the step-selection theorem on the concrete one-crate
experiment. -/
theorem build_graph_step_selection_witness :
    "c" ∈ exOne.crates ∧ cfg0.should_skip "c" = false ∧
    ∃ p b₁ b₂,
      gOne.lookup p = some (.task ⟨"c", .prepare⟩ false) ∧
      gOne.lookup b₁ = some (.task ⟨"c", .buildOnly "a" false⟩ false) ∧
      gOne.lookup b₂ = some (.task ⟨"c", .buildOnly "b" false⟩ false) ∧
      (b₁, p) ∈ gOne.edges ∧
      (b₂, p) ∈ gOne.edges :=
  ⟨by simp [exOne], rfl,
   build_graph_step_selection exOne cfg0 "c" (by simp [exOne]) rfl⟩

theorem edgeTargets_append (l₁ l₂ : List (Nat × Nat)) (n : Nat) :
    edgeTargets (l₁ ++ l₂) n = edgeTargets l₁ n ++ edgeTargets l₂ n := by
  induction l₁ with
  | nil => simp [edgeTargets]
  | cons p rest ih =>
    obtain ⟨a, b⟩ := p
    by_cases h : a = n <;> simp [edgeTargets, h, ih]

theorem edgeTargets_eq_nil (l : List (Nat × Nat)) (n : Nat) (h : ∀ e ∈ l, e.1 ≠ n) :
    edgeTargets l n = [] := by
  induction l with
  | nil => simp [edgeTargets]
  | cons p rest ih =>
    obtain ⟨a, b⟩ := p
    have ha : a ≠ n := h (a, b) (List.mem_cons_self _ _)
    simp only [edgeTargets, if_neg ha]
    exact ih fun e he => h e (List.mem_cons_of_mem _ he)

theorem edgeTargets_map_self (deps : List Nat) (i : Nat) :
    edgeTargets (deps.map fun dep => (i, dep)) i = deps := by
  induction deps with
  | nil => simp [edgeTargets]
  | cons d rest ih => simp [edgeTargets, ih]

/-- Claim C8 counterexample: on a concrete two-crate graph the code's walk
(`next_task`, scanning petgraph neighbor lists, i.e. reverse insertion order)
selects the second crate's prepare task at node 5, while a walk that scans
children in insertion order — what the claim asserts — selects the first
crate's prepare task at node 1.  The two selections differ, so children are
not scanned in insertion order. -/
theorem walk_not_insertion_order :
    (next_task neAll 30 gTwo).map Prod.fst = some (.task 5 ⟨"c2", .prepare⟩) ∧
    (next_task_insertion neAll 30 gTwo).map Prod.fst = some (.task 1 ⟨"c1", .prepare⟩) ∧
    (5 : Nat) ≠ 1 :=
  ⟨rfl, rfl, by decide⟩

/-- Claim C8 (amended): in `walk_graph`, the out-neighbors of every visited
node are scanned in reverse insertion order (petgraph's neighbor iteration
order) — the out-neighbor list of a node added with dependency list `deps` is
`deps.reverse` — and task selection by `next_task` is deterministic for a
given graph state: two calls on equal graph states with the same `needs_exec`
oracle return the same result. -/
theorem walk_order_deterministic :
    (∀ (g : TasksGraph) (nd : Node) (deps : List Nat),
      (∀ e ∈ g.edges, e.1 ≠ g.nextId) →
      (g.add_node nd deps).1.outNeighbors (g.add_node nd deps).2 = deps.reverse) ∧
    (∀ (ne : Task → Bool) (fuel : Nat) (g₁ g₂ : TasksGraph), g₁ = g₂ →
      next_task ne fuel g₁ = next_task ne fuel g₂) := by
  constructor
  · intro g nd deps h
    simp only [TasksGraph.add_node, TasksGraph.outNeighbors]
    rw [edgeTargets_append, edgeTargets_eq_nil g.edges g.nextId h,
      edgeTargets_map_self]
    simp
  · intro ne fuel g₁ g₂ h
    rw [h]

/-- Witness for the amended ordering/determinism theorem on concrete
inputs. -/
theorem walk_order_deterministic_witness :
    (∀ e ∈ TasksGraph.new.edges, e.1 ≠ TasksGraph.new.nextId) ∧
    (TasksGraph.new.add_node .crateCompleted [1, 2]).1.outNeighbors
      (TasksGraph.new.add_node .crateCompleted [1, 2]).2 = [2, 1] ∧
    next_task neAll 30 gOne = next_task neAll 30 gOne :=
  ⟨by simp [TasksGraph.new],
   walk_order_deterministic.1 TasksGraph.new .crateCompleted [1, 2]
     (by simp [TasksGraph.new]),
   walk_order_deterministic.2 neAll 30 gOne gOne rfl⟩

theorem walkAlready_eq_true (ne : Task → Bool) (nd : Node) (h : walkAlready ne nd = true) :
    ∃ t, nd = .task t false := by
  cases nd with
  | task t running =>
    cases running
    · exact ⟨t, rfl⟩
    · simp [walkAlready] at h
  | crateCompleted => simp [walkAlready] at h
  | root => simp [walkAlready] at h
theorem walk_preserves_runningOrGone (ne : Task → Bool) :
    ∀ (fuel : Nat) (g : TasksGraph) (call : WalkCall) (out : WalkOut) (g' : TasksGraph)
      (i : Nat),
      walk ne fuel g call = some (out, g') → runningOrGone g i →
      runningOrGone g' i ∧ ∀ t, out ≠ .res (.task i t) := by
  intro fuel
  induction fuel with
  | zero => intro g call out g' i h; simp [walk] at h
  | succ fuel ih =>
    intro g call out g' i h hInv
    rcases call with n | ⟨ns, blocked⟩
    · simp only [walk] at h
      cases hn : g.lookup n with
      | none => simp [hn] at h
      | some nd =>
        by_cases ha : walkAlready ne nd = true
        · obtain ⟨tnd, rfl⟩ := walkAlready_eq_true ne nd ha
          simp only [hn, ha, if_true, Option.some.injEq, Prod.mk.injEq] at h
          obtain ⟨rfl, rfl⟩ := h
          have hni : ¬n = i := by
            intro hh; subst hh
            rcases hInv with ⟨t', ht'⟩ | hnone
            · rw [hn] at ht'; simp at ht'
            · rw [hn] at hnone; simp at hnone
          refine ⟨?_, by simp⟩
          have hin : ¬i = n := fun hh => hni hh.symm
          simp only [runningOrGone, TasksGraph.mark_as_completed, lookup_removeNode,
            if_neg hin]
          exact hInv
        · cases hrec : walk ne fuel g (.list (g.outNeighbors n) false) with
          | none => simp [hn, ha, hrec] at h
          | some p =>
            obtain ⟨o₁, g₁⟩ := p
            obtain ⟨hInv₁, hno₁⟩ := ih g (.list (g.outNeighbors n) false) o₁ g₁ i hrec hInv
            cases o₁ with
            | res r =>
              simp only [hn, ha, if_false, hrec, Option.some.injEq, Prod.mk.injEq] at h
              obtain ⟨rfl, rfl⟩ := h
              exact ⟨hInv₁, hno₁⟩
            | scanned bl =>
              cases bl with
              | true =>
                simp only [hn, ha, if_false, hrec, if_true, Option.some.injEq,
                  Prod.mk.injEq] at h
                obtain ⟨rfl, rfl⟩ := h
                exact ⟨hInv₁, by simp⟩
              | false =>
                cases hn₁ : g₁.lookup n with
                | none => simp [hn, ha, hrec, hn₁] at h
                | some nd₁ =>
                  cases nd₁ with
                  | task t₁ running₁ =>
                    cases running₁ with
                    | false =>
                      simp only [hn, ha, if_false, hrec, hn₁, Option.some.injEq,
                        Prod.mk.injEq] at h
                      obtain ⟨rfl, rfl⟩ := h
                      have hni : ¬n = i := by
                        intro hh; subst hh
                        rcases hInv₁ with ⟨t', ht'⟩ | hnone
                        · rw [hn₁] at ht'; simp at ht'
                        · rw [hn₁] at hnone; simp at hnone
                      refine ⟨?_, ?_⟩
                      · have hin : ¬i = n := fun hh => hni hh.symm
                        simp only [runningOrGone, lookup_setRunning, if_neg hin]
                        exact hInv₁
                      · intro t hcontra
                        simp only [WalkOut.res.injEq, WalkResult.task.injEq] at hcontra
                        exact hni hcontra.1
                    | true =>
                      simp only [hn, ha, if_false, hrec, hn₁, Option.some.injEq,
                        Prod.mk.injEq] at h
                      obtain ⟨rfl, rfl⟩ := h
                      exact ⟨hInv₁, by simp⟩
                  | crateCompleted =>
                    simp only [hn, ha, if_false, hrec, hn₁, Option.some.injEq,
                      Prod.mk.injEq] at h
                    obtain ⟨rfl, rfl⟩ := h
                    have hni : ¬n = i := by
                      intro hh; subst hh
                      rcases hInv₁ with ⟨t', ht'⟩ | hnone
                      · rw [hn₁] at ht'; simp at ht'
                      · rw [hn₁] at hnone; simp at hnone
                    refine ⟨?_, by simp⟩
                    have hin : ¬i = n := fun hh => hni hh.symm
                    simp only [runningOrGone, TasksGraph.mark_as_completed,
                      lookup_removeNode, if_neg hin]
                    exact hInv₁
                  | root =>
                    simp only [hn, ha, if_false, hrec, hn₁, Option.some.injEq,
                      Prod.mk.injEq] at h
                    obtain ⟨rfl, rfl⟩ := h
                    exact ⟨hInv₁, by simp⟩
    · cases ns with
      | nil =>
        simp only [walk, Option.some.injEq, Prod.mk.injEq] at h
        obtain ⟨rfl, rfl⟩ := h
        exact ⟨hInv, by simp⟩
      | cons c rest =>
        simp only [walk] at h
        cases hrec : walk ne fuel g (.node c) with
        | none => simp [hrec] at h
        | some p =>
          obtain ⟨o₁, g₁⟩ := p
          obtain ⟨hInv₁, hno₁⟩ := ih g (.node c) o₁ g₁ i hrec hInv
          cases o₁ with
          | res r =>
            cases r with
            | task j t =>
              simp only [hrec, Option.some.injEq, Prod.mk.injEq] at h
              obtain ⟨rfl, rfl⟩ := h
              exact ⟨hInv₁, hno₁⟩
            | blocked =>
              rw [hrec] at h
              exact ih g₁ (.list rest true) out g' i h hInv₁
            | notBlocked =>
              rw [hrec] at h
              exact ih g₁ (.list rest blocked) out g' i h hInv₁
            | finished =>
              simp only [hrec, Option.some.injEq, Prod.mk.injEq] at h
              obtain ⟨rfl, rfl⟩ := h
              exact ⟨hInv₁, by simp⟩
          | scanned bl => simp [hrec] at h

theorem walk_returns_running (ne : Task → Bool) :
    ∀ (fuel : Nat) (g : TasksGraph) (call : WalkCall) (i : Nat) (t : Task)
      (g' : TasksGraph),
      walk ne fuel g call = some (.res (.task i t), g') →
      g'.lookup i = some (.task t true) := by
  intro fuel
  induction fuel with
  | zero => intro g call i t g' h; simp [walk] at h
  | succ fuel ih =>
    intro g call i t g' h
    rcases call with n | ⟨ns, blocked⟩
    · simp only [walk] at h
      cases hn : g.lookup n with
      | none => simp [hn] at h
      | some nd =>
        by_cases ha : walkAlready ne nd = true
        · simp [hn, ha] at h
        · cases hrec : walk ne fuel g (.list (g.outNeighbors n) false) with
          | none => simp [hn, ha, hrec] at h
          | some p =>
            obtain ⟨o₁, g₁⟩ := p
            cases o₁ with
            | res r =>
              simp only [hn, ha, if_false, hrec, Option.some.injEq, Prod.mk.injEq] at h
              obtain ⟨rfl, rfl⟩ := h
              exact ih _ _ _ _ _ hrec
            | scanned bl =>
              cases bl with
              | true => simp [hn, ha, hrec] at h
              | false =>
                cases hn₁ : g₁.lookup n with
                | none => simp [hn, ha, hrec, hn₁] at h
                | some nd₁ =>
                  cases nd₁ with
                  | task t₁ running₁ =>
                    cases running₁ with
                    | false =>
                      simp only [hn, ha, if_false, hrec, hn₁, Option.some.injEq,
                        Prod.mk.injEq, WalkOut.res.injEq, WalkResult.task.injEq] at h
                      obtain ⟨⟨rfl, rfl⟩, rfl⟩ := h
                      rw [lookup_setRunning, if_pos rfl, hn₁]
                      rfl
                    | true => simp [hn, ha, hrec, hn₁] at h
                  | crateCompleted => simp [hn, ha, hrec, hn₁] at h
                  | root => simp [hn, ha, hrec, hn₁] at h
    · cases ns with
      | nil => simp [walk] at h
      | cons c rest =>
        simp only [walk] at h
        cases hrec : walk ne fuel g (.node c) with
        | none => simp [hrec] at h
        | some p =>
          obtain ⟨o₁, g₁⟩ := p
          cases o₁ with
          | res r =>
            cases r with
            | task j tj =>
              simp only [hrec, Option.some.injEq, Prod.mk.injEq, WalkOut.res.injEq,
                WalkResult.task.injEq] at h
              obtain ⟨⟨rfl, rfl⟩, rfl⟩ := h
              exact ih _ _ _ _ _ hrec
            | blocked =>
              rw [hrec] at h
              exact ih _ _ _ _ _ h
            | notBlocked =>
              rw [hrec] at h
              exact ih _ _ _ _ _ h
            | finished => simp [hrec] at h
          | scanned bl => simp [hrec] at h

theorem mark_preserves_lookup :
    ∀ (fuel : Nat) (g : TasksGraph) (call : MarkCall) (g' : TasksGraph)
      (recs : List Task),
      mark_as_failed fuel g call = some (g', recs) →
      ∀ j v, g'.lookup j = some v → g.lookup j = some v := by
  intro fuel
  induction fuel with
  | zero => intro g call g' recs h; simp [mark_as_failed] at h
  | succ fuel ih =>
    intro g call g' recs h j v hj
    rcases call with n | ns
    · simp only [mark_as_failed] at h
      cases hrec : mark_as_failed fuel g (.list (g.inNeighbors n)) with
      | none => simp [hrec] at h
      | some p =>
        obtain ⟨g₁, recs₁⟩ := p
        cases hn₁ : g₁.lookup n with
        | none => simp [hrec, hn₁] at h
        | some nd₁ =>
          cases nd₁ with
          | task t₁ running₁ =>
            simp only [hrec, hn₁, Option.some.injEq, Prod.mk.injEq] at h
            obtain ⟨rfl, rfl⟩ := h
            rw [TasksGraph.mark_as_completed, lookup_removeNode] at hj
            by_cases hjn : j = n
            · rw [if_pos hjn] at hj; simp at hj
            · rw [if_neg hjn] at hj
              exact ih g _ g₁ recs₁ hrec j v hj
          | crateCompleted =>
            simp only [hrec, hn₁, Option.some.injEq, Prod.mk.injEq] at h
            obtain ⟨rfl, rfl⟩ := h
            exact ih _ _ _ _ hrec j v hj
          | root =>
            simp only [hrec, hn₁, Option.some.injEq, Prod.mk.injEq] at h
            obtain ⟨rfl, rfl⟩ := h
            exact ih _ _ _ _ hrec j v hj
    · cases ns with
      | nil =>
        simp only [mark_as_failed, Option.some.injEq, Prod.mk.injEq] at h
        obtain ⟨rfl, rfl⟩ := h
        exact hj
      | cons c rest =>
        simp only [mark_as_failed] at h
        cases hrec : mark_as_failed fuel g (.node c) with
        | none => simp [hrec] at h
        | some p =>
          obtain ⟨g₁, r₁⟩ := p
          cases hrec₂ : mark_as_failed fuel g₁ (.list rest) with
          | none => simp [hrec, hrec₂] at h
          | some p₂ =>
            obtain ⟨g₂, r₂⟩ := p₂
            simp only [hrec, hrec₂, Option.some.injEq, Prod.mk.injEq] at h
            obtain ⟨rfl, rfl⟩ := h
            exact ih _ _ _ _ hrec j v (ih _ _ _ _ hrec₂ j v hj)

theorem mark_preserves_runningOrGone (fuel : Nat) (g : TasksGraph) (n : Nat)
    (g' : TasksGraph) (recs : List Task) (i : Nat)
    (h : mark_as_failed fuel g (.node n) = some (g', recs))
    (hInv : runningOrGone g i) : runningOrGone g' i := by
  cases hg' : g'.lookup i with
  | none => exact Or.inr hg'
  | some v =>
    have hv := mark_preserves_lookup fuel g (.node n) g' recs h i v hg'
    rcases hInv with ⟨t, ht⟩ | hnone
    · rw [ht] at hv
      injection hv with hv'
      exact Or.inl ⟨t, by rw [hg', hv']⟩
    · rw [hnone] at hv; simp at hv

theorem runOps_no_repeat (ne : Task → Bool) :
    ∀ (ops : List GraphOp) (g : TasksGraph) (i : Nat) (rs : List WalkResult)
      (g₂ : TasksGraph),
      runningOrGone g i → avoidsMark ops i → runOps ne ops g = some (rs, g₂) →
      ∀ r ∈ rs, ∀ t, r ≠ .task i t := by
  intro ops
  induction ops with
  | nil =>
    intro g i rs g₂ hInv hops h
    simp only [runOps, Option.some.injEq, Prod.mk.injEq] at h
    obtain ⟨rfl, rfl⟩ := h
    simp
  | cons op rest ih =>
    intro g i rs g₂ hInv hops h
    have hops' : avoidsMark rest i := fun o ho => hops o (List.mem_cons_of_mem _ ho)
    cases op with
    | next fuel =>
      simp only [runOps] at h
      cases hnt : next_task ne fuel g with
      | none => simp [hnt] at h
      | some p =>
        obtain ⟨r, g₁⟩ := p
        cases hrest : runOps ne rest g₁ with
        | none => simp [hnt, hrest] at h
        | some p₂ =>
          obtain ⟨rs', g₂'⟩ := p₂
          simp only [hnt, hrest, Option.some.injEq, Prod.mk.injEq] at h
          obtain ⟨rfl, rfl⟩ := h
          have hw : walk ne fuel g (.node g.root) = some (.res r, g₁) := by
            unfold next_task at hnt
            cases hwk : walk ne fuel g (.node g.root) with
            | none => simp [hwk] at hnt
            | some q =>
              obtain ⟨o₁, g₁'⟩ := q
              cases o₁ with
              | res r' =>
                simp only [hwk, Option.some.injEq, Prod.mk.injEq] at hnt
                obtain ⟨rfl, rfl⟩ := hnt
                rfl
              | scanned bl => simp [hwk] at hnt
          obtain ⟨hInv₁, hno₁⟩ :=
            walk_preserves_runningOrGone ne fuel g (.node g.root) (.res r) g₁ i hw hInv
          intro x hx t
          rcases List.mem_cons.mp hx with rfl | hx'
          · intro hcontra
            exact hno₁ t (by rw [hcontra])
          · exact ih _ _ _ _ hInv₁ hops' hrest x hx' t
    | complete n =>
      simp only [runOps] at h
      have hni : n ≠ i := hops (.complete n) (List.mem_cons_self _ _)
      have hInv₁ : runningOrGone (g.mark_as_completed n) i := by
        have hin : ¬i = n := fun hh => hni hh.symm
        simp only [runningOrGone, TasksGraph.mark_as_completed, lookup_removeNode,
          if_neg hin]
        exact hInv
      exact ih _ _ _ _ hInv₁ hops' h
    | fail fuel n =>
      simp only [runOps] at h
      cases hmk : mark_as_failed fuel g (.node n) with
      | none => simp [hmk] at h
      | some p =>
        obtain ⟨g₁, recs⟩ := p
        rw [hmk] at h
        exact ih _ _ _ _
          (mark_preserves_runningOrGone fuel g n g₁ recs i hmk hInv) hops' h

/-- Claim C1: `next_task` never returns the same task node twice without an
intervening `mark_as_completed` or `mark_as_failed` on that node: a call
returning `Task(i, t)` leaves node `i` with its running flag set, and across
any following sequence of `next_task` / `mark_as_completed` /
`mark_as_failed` operations that never marks `i`, no `next_task` call returns
a task at node `i` again (a running task node is reported `Blocked`, never
selected). -/
theorem next_task_no_repeat (ne : Task → Bool) (fuel : Nat) (g : TasksGraph)
    (i : Nat) (t : Task) (g₁ : TasksGraph) (ops : List GraphOp)
    (rs : List WalkResult) (g₂ : TasksGraph)
    (h₁ : next_task ne fuel g = some (.task i t, g₁))
    (hops : avoidsMark ops i)
    (h₂ : runOps ne ops g₁ = some (rs, g₂)) :
    g₁.lookup i = some (.task t true) ∧ ∀ r ∈ rs, ∀ t', r ≠ .task i t' := by
  have hw : walk ne fuel g (.node g.root) = some (.res (.task i t), g₁) := by
    unfold next_task at h₁
    cases hwk : walk ne fuel g (.node g.root) with
    | none => simp [hwk] at h₁
    | some q =>
      obtain ⟨o₁, g₁'⟩ := q
      cases o₁ with
      | res r' =>
        simp only [hwk, Option.some.injEq, Prod.mk.injEq] at h₁
        obtain ⟨rfl, rfl⟩ := h₁
        rfl
      | scanned bl => simp [hwk] at h₁
  have hrun := walk_returns_running ne fuel g (.node g.root) i t g₁ hw
  refine ⟨hrun, ?_⟩
  exact runOps_no_repeat ne ops g₁ i rs g₂ (Or.inl ⟨t, hrun⟩) hops h₂

/-- Witness for the no-repeat theorem: on the one-crate graph the first call
hands out the prepare task and a second call reports `Blocked`. -/
theorem next_task_no_repeat_witness :
    next_task neAll 30 gOne = some (.task 1 ⟨"c", .prepare⟩, gOneRunning) ∧
    avoidsMark [.next 30] 1 ∧
    runOps neAll [.next 30] gOneRunning = some ([.blocked], gOneRunning) ∧
    (gOneRunning.lookup 1 = some (.task ⟨"c", .prepare⟩ true) ∧
      ∀ r ∈ [WalkResult.blocked], ∀ t', r ≠ .task 1 t') :=
  ⟨rfl, by intro op hop; simp [avoidsMark] at hop; simp [hop], rfl,
   next_task_no_repeat neAll 30 gOne 1 ⟨"c", .prepare⟩ gOneRunning [.next 30]
     [.blocked] gOneRunning rfl
     (by intro op hop; simp at hop; simp [hop]) rfl⟩

/-- Claim C10: loading a row through `into_experiment_data` (the common path
of `get`, `all`, `run_by_agent` and `first_by_status`) succeeds whenever the
status and mode columns parse, and the resulting `github_issue` field is
`Some` exactly when all three of the `github_issue`, `github_issue_url` and
`github_issue_number` columns are non-null; a row with only some of the three
set loads successfully with `github_issue = None` rather than erroring. -/
theorem github_issue_all_or_nothing (db : DB) (r : ExperimentDBRecord)
    (st : Status) (m : ExMode)
    (hs : Status.fromStr r.status = some st) (hm : ExMode.fromStr r.mode = some m) :
    ∃ d, r.into_experiment_data db = some d ∧
      (d.server_data.github_issue.isSome = true ↔
        (r.github_issue.isSome = true ∧ r.github_issue_url.isSome = true ∧
          r.github_issue_number.isSome = true)) := by
  unfold ExperimentDBRecord.into_experiment_data
  rw [hs, hm]
  refine ⟨_, rfl, ?_⟩
  cases hgi : r.github_issue <;> cases hgu : r.github_issue_url <;>
    cases hgn : r.github_issue_number <;> simp [hgi, hgu, hgn]

/-- Witness: a row with only `github_issue` set loads with no issue
attached. -/
theorem github_issue_all_or_nothing_witness :
    Status.fromStr exRecPartial.status = some .queued ∧
    ExMode.fromStr exRecPartial.mode = some .buildOnly ∧
    ∃ d, exRecPartial.into_experiment_data exDB0 = some d ∧
      (d.server_data.github_issue.isSome = true ↔
        (exRecPartial.github_issue.isSome = true ∧
          exRecPartial.github_issue_url.isSome = true ∧
          exRecPartial.github_issue_number.isSome = true)) :=
  ⟨rfl, rfl, github_issue_all_or_nothing exDB0 exRecPartial .queued .buildOnly rfl rfl⟩

/-- Claim C4 counterexample: calling `set_status(Running)` on an experiment
that is already Running, with `started_at` set and `completed_at` null,
stamps `completed_at` — even though the transition does not leave the Running
status.  The claim's "new status different" condition does not hold of the
code: the second branch only checks the old status. -/
theorem set_status_stamps_on_running_to_running :
    exRun.server_data.status = .running ∧
    exRun.server_data.started_at = some 1 ∧
    exRun.server_data.completed_at = none ∧
    (exRun.set_status exDB0 .running 5).1.server_data.completed_at = some 5 :=
  ⟨rfl, rfl, rfl, rfl⟩

/-- Claim C4 (amended): `set_status` stamps `started_at := now` exactly when
the new status is Running and `started_at` was null; otherwise it stamps
`completed_at := now` exactly when the previous status was Running and
`completed_at` was null — including a Running→Running call with `started_at`
already set; no other call modifies either timestamp.  The same updates are
persisted on every row bearing the experiment's name. -/
theorem set_status_timestamps (self : ExperimentData) (db : DB) (status : Status)
    (now : Nat) :
    ((self.set_status db status now).1.server_data.started_at =
      if status = .running ∧ self.server_data.started_at = none then some now
      else self.server_data.started_at) ∧
    ((self.set_status db status now).1.server_data.completed_at =
      if ¬(status = .running ∧ self.server_data.started_at = none) ∧
          self.server_data.status = .running ∧ self.server_data.completed_at = none
      then some now
      else self.server_data.completed_at) ∧
    ((self.set_status db status now).1.server_data.status = status) ∧
    ((self.set_status db status now).2.experiments = db.experiments.map fun rec =>
      if rec.name = self.experiment.name then
        { rec with
            status := status.toStr
            started_at :=
              if status = .running ∧ self.server_data.started_at = none then some now
              else rec.started_at
            completed_at :=
              if ¬(status = .running ∧ self.server_data.started_at = none) ∧
                  self.server_data.status = .running ∧
                  self.server_data.completed_at = none
              then some now
              else rec.completed_at }
      else rec) := by
  unfold ExperimentData.set_status
  by_cases h1 : status = .running ∧ self.server_data.started_at = none
  · rw [if_pos h1]
    refine ⟨by simp [h1], by simp [h1], rfl, ?_⟩
    simp only [DB.updateByName, List.map_map]
    apply List.map_congr_left
    intro rec _
    by_cases hr : rec.name = self.experiment.name <;> simp [Function.comp, hr, h1]
  · by_cases h2 : self.server_data.status = .running ∧
        self.server_data.completed_at = none
    · rw [if_neg h1, if_pos h2]
      refine ⟨by simp [h1], by simp [h1, h2], rfl, ?_⟩
      simp only [DB.updateByName, List.map_map]
      apply List.map_congr_left
      intro rec _
      by_cases hr : rec.name = self.experiment.name <;> simp [Function.comp, hr, h1, h2]
    · rw [if_neg h1, if_neg h2]
      refine ⟨by simp [h1], by simp [h1, h2], rfl, ?_⟩
      simp only [DB.updateByName, List.map_map]
      apply List.map_congr_left
      intro rec _
      by_cases hr : rec.name = self.experiment.name <;> simp [Function.comp, hr, h1, h2]

/-- Claim C5 counterexample: with toolchains ["a", "b"], setting the start
toolchain to "b" fails validation and the persisted record is untouched — but
the in-memory experiment has been modified: its toolchains array now holds
"b" in the start slot, contradicting the claim that the in-memory experiment
(including its toolchains array) is unmodified. -/
theorem set_start_toolchain_mutates_on_error :
    exQ.experiment.tc_start = "a" ∧
    exQ.experiment.tc_end = "b" ∧
    (exQ.set_start_toolchain exDB0 "b").1 = .error () ∧
    (exQ.set_start_toolchain exDB0 "b").2.1.experiment.tc_start = "b" :=
  ⟨rfl, rfl, rfl, rfl⟩

/-- Claim C5 (amended): both toolchain setters validate that the two
toolchains differ before committing; on validation failure the error is
surfaced and the persisted record is untouched, but the in-memory
experiment's toolchains array retains the attempted new value (the
assignment happens before validation). -/
theorem set_toolchain_validation (self : ExperimentData) (db : DB) (tc : Toolchain) :
    (tc = self.experiment.tc_end →
      self.set_start_toolchain db tc =
        (.error (),
         { self with experiment := { self.experiment with tc_start := tc } }, db)) ∧
    (tc = self.experiment.tc_start →
      self.set_end_toolchain db tc =
        (.error (),
         { self with experiment := { self.experiment with tc_end := tc } }, db)) := by
  constructor
  · intro h
    unfold ExperimentData.set_start_toolchain
    simp [Experiment.validate, h]
  · intro h
    unfold ExperimentData.set_end_toolchain
    simp [Experiment.validate, h]

/-- Witness: the failed start-toolchain assignment on the concrete queued
experiment. -/
theorem set_toolchain_validation_witness :
    ("b" = exQ.experiment.tc_end) ∧
    exQ.set_start_toolchain exDB0 "b" =
      (.error (), { exQ with experiment := { exQ.experiment with tc_start := "b" } },
       exDB0) :=
  ⟨rfl, (set_toolchain_validation exQ exDB0 "b").1 rfl⟩

theorem queueBefore_iff (a b : ExperimentDBRecord) :
    queueBefore a b = true ↔
      b.priority < a.priority ∨
        (a.priority = b.priority ∧ a.created_at < b.created_at) := by
  simp [queueBefore]

theorem queueBefore_irrefl (a : ExperimentDBRecord) : queueBefore a a = false := by
  simp [queueBefore]

theorem queueBefore_trans (a b c : ExperimentDBRecord)
    (h1 : queueBefore a b = true) (h2 : queueBefore b c = true) :
    queueBefore a c = true := by
  rw [queueBefore_iff] at h1 h2 ⊢
  omega

theorem foldl_queueStep_ge :
    ∀ (l : List ExperimentDBRecord) (b r : ExperimentDBRecord),
      List.foldl queueStep (some b) l = some r → r = b ∨ queueBefore r b = true := by
  intro l
  induction l with
  | nil =>
    intro b r h
    simp only [List.foldl_nil, Option.some.injEq] at h
    exact Or.inl h.symm
  | cons x rest ih =>
    intro b r h
    simp only [List.foldl_cons] at h
    by_cases hx : x.status = "queued"
    · by_cases hq : queueBefore x b = true
      · rw [show queueStep (some b) x = some x by simp [queueStep, hx, hq]] at h
        rcases ih x r h with rfl | hrx
        · exact Or.inr hq
        · exact Or.inr (queueBefore_trans r x b hrx hq)
      · rw [show queueStep (some b) x = some b by simp [queueStep, hx, hq]] at h
        exact ih b r h
    · rw [show queueStep (some b) x = some b by simp [queueStep, hx]] at h
      exact ih b r h

theorem foldl_queueStep_best :
    ∀ (l : List ExperimentDBRecord) (acc : Option ExperimentDBRecord)
      (r : ExperimentDBRecord),
      List.foldl queueStep acc l = some r →
      ∀ x ∈ l, x.status = "queued" → queueBefore x r = false := by
  intro l
  induction l with
  | nil => intro acc r h x hx; simp at hx
  | cons y rest ih =>
    intro acc r h x hx hxq
    rcases List.mem_cons.mp hx with rfl | hx'
    · have hstep : ∃ c, queueStep acc x = some c ∧ queueBefore x c = false := by
        cases acc with
        | none => exact ⟨x, by simp [queueStep, hxq], queueBefore_irrefl x⟩
        | some b =>
          by_cases hq : queueBefore x b = true
          · exact ⟨x, by simp [queueStep, hxq, hq], queueBefore_irrefl x⟩
          · exact ⟨b, by simp [queueStep, hxq, hq], by simpa using hq⟩
      obtain ⟨c, hc, hyc⟩ := hstep
      rw [List.foldl_cons, hc] at h
      rcases foldl_queueStep_ge rest c r h with rfl | hrc
      · exact hyc
      · cases hyr : queueBefore x r with
        | false => rfl
        | true =>
          exact absurd (queueBefore_trans x r c hyr hrc) (by simp [hyc])
    · rw [List.foldl_cons] at h
      exact ih (queueStep acc y) r h x hx' hxq

theorem foldl_queueStep_mem :
    ∀ (l : List ExperimentDBRecord) (acc : Option ExperimentDBRecord)
      (r : ExperimentDBRecord),
      List.foldl queueStep acc l = some r →
      acc = some r ∨ (r ∈ l ∧ r.status = "queued") := by
  intro l
  induction l with
  | nil => intro acc r h; exact Or.inl h
  | cons y rest ih =>
    intro acc r h
    rw [List.foldl_cons] at h
    rcases ih (queueStep acc y) r h with hstep | ⟨hmem, hq⟩
    · by_cases hy : y.status = "queued"
      · cases acc with
        | none =>
          rw [show queueStep none y = some y by simp [queueStep, hy]] at hstep
          injection hstep with hstep
          exact Or.inr ⟨by rw [← hstep]; exact List.mem_cons_self _ _, by rw [← hstep]; exact hy⟩
        | some b =>
          by_cases hq : queueBefore y b = true
          · rw [show queueStep (some b) y = some y by simp [queueStep, hy, hq]] at hstep
            injection hstep with hstep
            exact Or.inr ⟨by rw [← hstep]; exact List.mem_cons_self _ _, by rw [← hstep]; exact hy⟩
          · rw [show queueStep (some b) y = some b by simp [queueStep, hy, hq]] at hstep
            exact Or.inl hstep
      · rw [show queueStep acc y = acc by simp [queueStep, hy]] at hstep
        exact Or.inl hstep
    · exact Or.inr ⟨List.mem_cons_of_mem _ hmem, hq⟩

theorem foldl_queueStep_none_of :
    ∀ (l : List ExperimentDBRecord),
      (∀ x ∈ l, x.status ≠ "queued") → List.foldl queueStep none l = none := by
  intro l
  induction l with
  | nil => intro h; rfl
  | cons y rest ih =>
    intro h
    rw [List.foldl_cons,
      show queueStep none y = none by
        simp [queueStep, h y (List.mem_cons_self _ _)]]
    exact ih fun x hx => h x (List.mem_cons_of_mem _ hx)

/-- Claim C2: the assignment protocol of `Experiments::next`.  If the agent
already owns a Running experiment, `(false, that)` is returned with the store
untouched; if no Queued experiment exists, none is returned; otherwise the
selected row is a Queued row that no other Queued row beats under
`(priority DESC, created_at ASC)`, its status is set to Running and then its
assignee to the agent — both persisted — and `(true, it)` is returned. -/
theorem next_assignment_protocol (db : DB) (agent : String) (now : Nat) :
    (∀ e, Experiments.run_by_agent db agent = .ok (some e) →
      Experiments.next db agent now = .ok (some (false, e), db)) ∧
    (Experiments.run_by_agent db agent = .ok none →
      (∀ x ∈ db.experiments, x.status ≠ "queued") →
      Experiments.next db agent now = .ok (none, db)) ∧
    (∀ r e, Experiments.run_by_agent db agent = .ok none →
      db.first_queued_row = some r →
      r.into_experiment_data db = some e →
      (r ∈ db.experiments ∧ r.status = "queued" ∧
        ∀ x ∈ db.experiments, x.status = "queued" → queueBefore x r = false) ∧
      Experiments.next db agent now =
        .ok (some (true,
            { e with server_data :=
                { e.server_data with
                    status := .running
                    started_at :=
                      if e.server_data.started_at = none then some now
                      else e.server_data.started_at
                    assigned_to := some agent } }),
          { db with experiments := db.experiments.map fun x =>
              if x.name = r.name then
                { x with
                    status := "running"
                    started_at :=
                      if e.server_data.started_at = none then some now
                      else x.started_at
                    assigned_to := some agent }
              else x })) := by
  refine ⟨?_, ?_, ?_⟩
  · intro e h
    unfold Experiments.next
    simp only [h]
  · intro h hq
    unfold Experiments.next
    have hnone : db.first_queued_row = none := foldl_queueStep_none_of _ hq
    simp only [h, hnone]
  · intro r e hrba hfq hinto
    have hmem : r ∈ db.experiments ∧ r.status = "queued" := by
      rcases foldl_queueStep_mem db.experiments none r hfq with habs | hok
      · exact absurd habs (by simp)
      · exact hok
    refine ⟨⟨hmem.1, hmem.2, foldl_queueStep_best db.experiments none r hfq⟩, ?_⟩
    have hst : Status.fromStr r.status = some Status.queued := by rw [hmem.2]; rfl
    have hinto2 := hinto
    unfold ExperimentDBRecord.into_experiment_data at hinto
    rw [hst] at hinto
    cases hm : ExMode.fromStr r.mode with
    | none => rw [hm] at hinto; simp at hinto
    | some m =>
      rw [hm] at hinto
      simp only [Option.some.injEq] at hinto
      subst hinto
      unfold Experiments.next
      simp only [hrba, hfq, hinto2]
      unfold ExperimentData.set_status ExperimentData.set_assigned_to
      by_cases hsa : r.started_at = none
      · simp only [hsa, Status.toStr, DB.updateByName, List.map_map]
        simp [hsa, Status.toStr]
        intro a _
        by_cases hx : a.name = r.name <;> simp [Function.comp, hx, hsa]
      · simp only [hsa, Status.toStr, DB.updateByName, List.map_map]
        simp [hsa, Status.toStr]
        intro a _
        by_cases hx : a.name = r.name <;> simp [Function.comp, hx, hsa]

/-- Witness for the assignment protocol: with a priority-0 row "test" and a
priority-10 row "important", agent-1 is assigned "important" as new, with the
status and assignee persisted. -/
theorem next_assignment_protocol_witness :
    Experiments.run_by_agent exDBQ "agent-1" = .ok none ∧
    exDBQ.first_queued_row = some recImportant ∧
    recImportant.into_experiment_data exDBQ = some exImportant ∧
    ((recImportant ∈ exDBQ.experiments ∧ recImportant.status = "queued" ∧
        ∀ x ∈ exDBQ.experiments, x.status = "queued" →
          queueBefore x recImportant = false) ∧
      Experiments.next exDBQ "agent-1" 7 =
        .ok (some (true,
            { exImportant with server_data :=
                { exImportant.server_data with
                    status := .running
                    started_at :=
                      if exImportant.server_data.started_at = none then some 7
                      else exImportant.server_data.started_at
                    assigned_to := some "agent-1" } }),
          { exDBQ with experiments := exDBQ.experiments.map fun x =>
              if x.name = recImportant.name then
                { x with
                    status := "running"
                    started_at :=
                      if exImportant.server_data.started_at = none then some 7
                      else x.started_at
                    assigned_to := some "agent-1" }
              else x })) :=
  ⟨rfl, rfl, rfl,
   (next_assignment_protocol exDBQ "agent-1" 7).2.2 recImportant exImportant rfl rfl rfl⟩

theorem Anc_trans (g : TasksGraph) (n m j : Nat) (h1 : Anc g n m) (h2 : Anc g m j) :
    Anc g n j := by
  induction h1 with
  | refl => exact h2
  | head he _ ih => exact Anc.head he (ih h2)

theorem Anc_mono (g g₁ : TasksGraph) (hsub : ∀ e : Nat × Nat, e ∈ g₁.edges → e ∈ g.edges)
    (n j : Nat) (h : Anc g₁ n j) : Anc g n j := by
  induction h with
  | refl => exact Anc.refl _
  | head he _ ih => exact Anc.head (hsub _ he) ih

theorem anc_survive (g g₁ : TasksGraph)
    (hA : ∀ j v, g₁.lookup j = some v → g.lookup j = some v)
    (hD : ∀ a b, (a, b) ∈ g₁.edges ↔
      ((a, b) ∈ g.edges ∧ ¬(g.lookup a ≠ none ∧ g₁.lookup a = none) ∧
        ¬(g.lookup b ≠ none ∧ g₁.lookup b = none)))
    (hBC : ∀ x, (g.lookup x ≠ none ∧ g₁.lookup x = none) →
      ∀ y, Anc g x y → isTaskAt g y → g₁.lookup y = none) :
    ∀ s j, Anc g s j → isTaskAt g j → ¬g₁.lookup j = none →
      ¬(g.lookup s ≠ none ∧ g₁.lookup s = none) → Anc g₁ s j := by
  intro s j hanc
  induction hanc with
  | refl => intro _ _ _; exact Anc.refl _
  | head he hanc' ih =>
    rename_i n a j'
    intro htask hj hs
    by_cases hda : g.lookup a ≠ none ∧ g₁.lookup a = none
    · exact absurd (hBC a hda _ hanc' htask) hj
    · exact Anc.head ((hD a n).mpr ⟨he, hda, hs⟩) (ih htask hj hda)

theorem mark_master :
    ∀ (fuel : Nat) (g : TasksGraph) (call : MarkCall) (g' : TasksGraph)
      (recs : List Task),
      mark_as_failed fuel g call = some (g', recs) →
      (∀ j, g.lookup j ≠ none → g'.lookup j = none → srcAnc g call j ∧ isTaskAt g j) ∧
      (∀ j, srcAnc g call j → isTaskAt g j → g'.lookup j = none) ∧
      (∀ a b, (a, b) ∈ g'.edges ↔
        ((a, b) ∈ g.edges ∧ ¬(g.lookup a ≠ none ∧ g'.lookup a = none) ∧
          ¬(g.lookup b ≠ none ∧ g'.lookup b = none))) ∧
      (∀ t, t ∈ recs ↔ ∃ j r₀, (g.lookup j ≠ none ∧ g'.lookup j = none) ∧
        g.lookup j = some (.task t r₀)) := by
  intro fuel
  induction fuel with
  | zero => intro g call g' recs h; simp [mark_as_failed] at h
  | succ fuel ih =>
    intro g call g' recs h
    rcases call with n | ns
    · simp only [mark_as_failed] at h
      cases hrec : mark_as_failed fuel g (.list (g.inNeighbors n)) with
      | none => simp [hrec] at h
      | some p =>
        obtain ⟨g₁, recs₁⟩ := p
        obtain ⟨hB1, hC1, hD1, hE1⟩ := ih g (.list (g.inNeighbors n)) g₁ recs₁ hrec
        have hA1 := mark_preserves_lookup fuel g (.list (g.inNeighbors n)) g₁ recs₁ hrec
        cases hn₁ : g₁.lookup n with
        | none => simp [hrec, hn₁] at h
        | some nd₁ =>
          have hgn : g.lookup n = some nd₁ := hA1 n nd₁ hn₁
          cases nd₁ with
          | task t₁ r₁ =>
            simp only [hrec, hn₁, Option.some.injEq, Prod.mk.injEq] at h
            obtain ⟨rfl, rfl⟩ := h
            have hlook : ∀ j, (g₁.mark_as_completed n).lookup j =
                if j = n then none else g₁.lookup j := fun j => lookup_removeNode g₁ j n
            have hdel : ∀ x,
                (g.lookup x ≠ none ∧ (g₁.mark_as_completed n).lookup x = none) ↔
                  ((g.lookup x ≠ none ∧ g₁.lookup x = none) ∨ x = n) := by
              intro x
              rw [hlook x]
              by_cases hx : x = n
              · subst hx
                simp [hgn]
              · simp [hx]
            refine ⟨?_, ?_, ?_, ?_⟩
            · intro j hg hg'
              rw [hlook j] at hg'
              by_cases hj : j = n
              · subst hj
                exact ⟨Anc.refl _, ⟨t₁, r₁, hgn⟩⟩
              · rw [if_neg hj] at hg'
                obtain ⟨⟨c, hc, hanc⟩, htask⟩ := hB1 j hg hg'
                exact ⟨Anc.head ((mem_inNeighbors g n c).mp hc) hanc, htask⟩
            · intro j hanc htask
              rw [hlook j]
              by_cases hj : j = n
              · simp [hj]
              · rw [if_neg hj]
                cases hanc with
                | refl => exact absurd rfl hj
                | head he hanc' =>
                  exact hC1 j ⟨_, (mem_inNeighbors g n _).mpr he, hanc'⟩ htask
            · intro a b
              have hedges : (g₁.mark_as_completed n).edges = removeIncident g₁.edges n :=
                rfl
              rw [hedges, mem_removeIncident, hD1 a b, hdel a, hdel b]
              tauto
            · intro t
              constructor
              · intro ht
                rcases List.mem_append.mp ht with h1 | h2
                · obtain ⟨j, r₀, hd, hv⟩ := (hE1 t).mp h1
                  exact ⟨j, r₀, (hdel j).mpr (Or.inl hd), hv⟩
                · have ht₁ : t = t₁ := by simpa using h2
                  subst ht₁
                  exact ⟨n, r₁, (hdel n).mpr (Or.inr rfl), hgn⟩
              · rintro ⟨j, r₀, hd, hv⟩
                rcases (hdel j).mp hd with hd₁ | rfl
                · exact List.mem_append.mpr (Or.inl ((hE1 t).mpr ⟨j, r₀, hd₁, hv⟩))
                · rw [hgn] at hv
                  simp only [Option.some.injEq, Node.task.injEq] at hv
                  obtain ⟨rfl, rfl⟩ := hv
                  simp
          | crateCompleted =>
            simp only [hrec, hn₁, Option.some.injEq, Prod.mk.injEq] at h
            obtain ⟨rfl, rfl⟩ := h
            refine ⟨?_, ?_, hD1, hE1⟩
            · intro j hg hg'
              obtain ⟨⟨c, hc, hanc⟩, htask⟩ := hB1 j hg hg'
              exact ⟨Anc.head ((mem_inNeighbors g n c).mp hc) hanc, htask⟩
            · intro j hanc htask
              cases hanc with
              | refl =>
                obtain ⟨t, r, hv⟩ := htask
                rw [hv] at hgn
                simp at hgn
              | head he hanc' =>
                exact hC1 j ⟨_, (mem_inNeighbors g n _).mpr he, hanc'⟩ htask
          | root =>
            simp only [hrec, hn₁, Option.some.injEq, Prod.mk.injEq] at h
            obtain ⟨rfl, rfl⟩ := h
            refine ⟨?_, ?_, hD1, hE1⟩
            · intro j hg hg'
              obtain ⟨⟨c, hc, hanc⟩, htask⟩ := hB1 j hg hg'
              exact ⟨Anc.head ((mem_inNeighbors g n c).mp hc) hanc, htask⟩
            · intro j hanc htask
              cases hanc with
              | refl =>
                obtain ⟨t, r, hv⟩ := htask
                rw [hv] at hgn
                simp at hgn
              | head he hanc' =>
                exact hC1 j ⟨_, (mem_inNeighbors g n _).mpr he, hanc'⟩ htask
    · cases ns with
      | nil =>
        simp only [mark_as_failed, Option.some.injEq, Prod.mk.injEq] at h
        obtain ⟨rfl, rfl⟩ := h
        refine ⟨?_, ?_, ?_, ?_⟩
        · intro j hg hg'
          exact absurd hg' hg
        · rintro j ⟨c, hc, _⟩
          simp at hc
        · intro a b
          constructor
          · intro he
            exact ⟨he, fun hd => hd.1 hd.2, fun hd => hd.1 hd.2⟩
          · rintro ⟨he, _, _⟩
            exact he
        · intro t
          constructor
          · intro ht
            simp at ht
          · rintro ⟨j, r₀, hd, hv⟩
            exact absurd hd.2 hd.1
      | cons c rest =>
        simp only [mark_as_failed] at h
        cases hrec : mark_as_failed fuel g (.node c) with
        | none => simp [hrec] at h
        | some p =>
          obtain ⟨g₁, r₁⟩ := p
          cases hrec₂ : mark_as_failed fuel g₁ (.list rest) with
          | none => simp [hrec, hrec₂] at h
          | some p₂ =>
            obtain ⟨g₂, r₂⟩ := p₂
            simp only [hrec, hrec₂, Option.some.injEq, Prod.mk.injEq] at h
            obtain ⟨rfl, rfl⟩ := h
            obtain ⟨hB1, hC1, hD1, hE1⟩ := ih g (.node c) g₁ r₁ hrec
            obtain ⟨hB2, hC2, hD2, hE2⟩ := ih g₁ (.list rest) g₂ r₂ hrec₂
            have hA1 := mark_preserves_lookup fuel g (.node c) g₁ r₁ hrec
            have hA2 := mark_preserves_lookup fuel g₁ (.list rest) g₂ r₂ hrec₂
            have hprop : ∀ j, g₁.lookup j = none → g₂.lookup j = none := by
              intro j hj
              cases hj₂ : g₂.lookup j with
              | none => rfl
              | some v =>
                rw [hA2 j v hj₂] at hj
                simp at hj
            have hsub1 : ∀ e : Nat × Nat, e ∈ g₁.edges → e ∈ g.edges := by
              intro e he
              obtain ⟨a, b⟩ := e
              exact ((hD1 a b).mp he).1
            have hdel : ∀ x, (g.lookup x ≠ none ∧ g₂.lookup x = none) ↔
                ((g.lookup x ≠ none ∧ g₁.lookup x = none) ∨
                  (g₁.lookup x ≠ none ∧ g₂.lookup x = none)) := by
              intro x
              constructor
              · rintro ⟨hg, hg₂⟩
                cases hx₁ : g₁.lookup x with
                | none => exact Or.inl ⟨hg, rfl⟩
                | some v => exact Or.inr ⟨by simp [hx₁], hg₂⟩
              · rintro (⟨hg, h₁⟩ | ⟨h₁, h₂⟩)
                · exact ⟨hg, hprop x h₁⟩
                · cases hx₁ : g₁.lookup x with
                  | none => exact absurd hx₁ h₁
                  | some v => exact ⟨by simp [hA1 x v hx₁], h₂⟩
            refine ⟨?_, ?_, ?_, ?_⟩
            · intro j hg hg₂
              cases hx₁ : g₁.lookup j with
              | none =>
                obtain ⟨hanc, htask⟩ := hB1 j hg hx₁
                exact ⟨⟨c, List.mem_cons_self _ _, hanc⟩, htask⟩
              | some v =>
                obtain ⟨⟨c', hc', hanc₁⟩, htask₁⟩ := hB2 j (by simp [hx₁]) hg₂
                refine ⟨⟨c', List.mem_cons_of_mem _ hc',
                  Anc_mono g g₁ hsub1 c' j hanc₁⟩, ?_⟩
                obtain ⟨t, r, hv₁⟩ := htask₁
                rw [hx₁] at hv₁
                simp only [Option.some.injEq] at hv₁
                subst hv₁
                exact ⟨t, r, hA1 j _ hx₁⟩
            · rintro j ⟨c0, hc0, hanc⟩ htask
              rcases List.mem_cons.mp hc0 with rfl | hc0r
              · exact hprop j (hC1 j hanc htask)
              · by_cases hj1 : g₁.lookup j = none
                · exact hprop j hj1
                · by_cases hdc : g.lookup c0 ≠ none ∧ g₁.lookup c0 = none
                  · obtain ⟨hanc_c, _⟩ := hB1 c0 hdc.1 hdc.2
                    exact absurd (hC1 j (Anc_trans g c c0 j hanc_c hanc) htask) hj1
                  · have hBC1 : ∀ x, (g.lookup x ≠ none ∧ g₁.lookup x = none) →
                        ∀ y, Anc g x y → isTaskAt g y → g₁.lookup y = none := by
                      intro x hx y hy hty
                      exact hC1 y (Anc_trans g c x y (hB1 x hx.1 hx.2).1 hy) hty
                    have hanc₁ : Anc g₁ c0 j :=
                      anc_survive g g₁ hA1 hD1 hBC1 c0 j hanc htask hj1 hdc
                    have htask₁ : isTaskAt g₁ j := by
                      obtain ⟨t, r, hv⟩ := htask
                      cases hv₁ : g₁.lookup j with
                      | none => exact absurd hv₁ hj1
                      | some v =>
                        have hgv := hA1 j v hv₁
                        rw [hv] at hgv
                        simp only [Option.some.injEq] at hgv
                        exact ⟨t, r, by rw [hv₁, ← hgv]⟩
                    exact hC2 j ⟨c0, hc0r, hanc₁⟩ htask₁
            · intro a b
              rw [hD2 a b, hD1 a b, hdel a, hdel b]
              tauto
            · intro t
              rw [List.mem_append]
              constructor
              · rintro (h1 | h2)
                · obtain ⟨j, r₀, hd, hv⟩ := (hE1 t).mp h1
                  exact ⟨j, r₀, (hdel j).mpr (Or.inl hd), hv⟩
                · obtain ⟨j, r₀, hd, hv⟩ := (hE2 t).mp h2
                  exact ⟨j, r₀, (hdel j).mpr (Or.inr hd), hA1 j _ hv⟩
              · rintro ⟨j, r₀, hd, hv⟩
                rcases (hdel j).mp hd with hd₁ | hd₂
                · exact Or.inl ((hE1 t).mpr ⟨j, r₀, hd₁, hv⟩)
                · cases hv₁ : g₁.lookup j with
                  | none => exact absurd hv₁ hd₂.1
                  | some v =>
                    have hgv := hA1 j v hv₁
                    rw [hv] at hgv
                    simp only [Option.some.injEq] at hgv
                    exact Or.inr ((hE2 t).mpr ⟨j, r₀, hd₂, by rw [hv₁, ← hgv]⟩)

/-- Claim C3: `mark_as_failed(n)` removes exactly the task nodes among
`{n} ∪ ancestors(n)` (ancestors along incoming edges); root and
crate-completed nodes in that set are not deleted; the given outcome is
recorded via `task.mark_as_failed` for exactly the task nodes in that set;
every other node keeps its value, and an edge survives exactly when neither
endpoint was deleted. -/
theorem mark_as_failed_prunes (fuel : Nat) (g : TasksGraph) (n : Nat)
    (g' : TasksGraph) (recs : List Task)
    (h : mark_as_failed fuel g (.node n) = some (g', recs)) :
    (∀ j, g'.lookup j = none ↔
      (g.lookup j = none ∨ (Anc g n j ∧ isTaskAt g j))) ∧
    (∀ j v, g'.lookup j = some v → g.lookup j = some v) ∧
    (∀ a b, (a, b) ∈ g'.edges ↔
      ((a, b) ∈ g.edges ∧ ¬(Anc g n a ∧ isTaskAt g a) ∧
        ¬(Anc g n b ∧ isTaskAt g b))) ∧
    (∀ t, t ∈ recs ↔ ∃ j r₀, Anc g n j ∧ g.lookup j = some (.task t r₀)) := by
  obtain ⟨hB, hC, hD, hE⟩ := mark_master fuel g (.node n) g' recs h
  have hA := mark_preserves_lookup fuel g (.node n) g' recs h
  have hdelIff : ∀ x, (g.lookup x ≠ none ∧ g'.lookup x = none) ↔
      (Anc g n x ∧ isTaskAt g x) := by
    intro x
    constructor
    · intro hd
      exact hB x hd.1 hd.2
    · rintro ⟨hanc, htask⟩
      refine ⟨?_, hC x hanc htask⟩
      obtain ⟨t, r, hv⟩ := htask
      simp [hv]
  refine ⟨?_, hA, ?_, ?_⟩
  · intro j
    constructor
    · intro hg'
      by_cases hg : g.lookup j = none
      · exact Or.inl hg
      · exact Or.inr ((hdelIff j).mp ⟨hg, hg'⟩)
    · rintro (hg | hat)
      · cases hj : g'.lookup j with
        | none => rfl
        | some v =>
          rw [hA j v hj] at hg
          simp at hg
      · exact hC j hat.1 hat.2
  · intro a b
    rw [hD a b, hdelIff a, hdelIff b]
  · intro t
    rw [hE t]
    constructor
    · rintro ⟨j, r₀, hd, hv⟩
      exact ⟨j, r₀, ((hdelIff j).mp hd).1, hv⟩
    · rintro ⟨j, r₀, hanc, hv⟩
      exact ⟨j, r₀, (hdelIff j).mpr ⟨hanc, ⟨_, _, hv⟩⟩, hv⟩

/-- Witness for the pruning theorem: failing the first toolchain task of the
one-crate graph removes exactly that task, records exactly its task value,
and leaves the prepare task, the other toolchain task, the crate-completed
node and the root in place. -/
theorem mark_as_failed_prunes_witness :
    mark_as_failed 20 gOne (.node 2) =
      some (gOneMarked, [⟨"c", .buildOnly "a" false⟩]) ∧
    ((∀ j, gOneMarked.lookup j = none ↔
        (gOne.lookup j = none ∨ (Anc gOne 2 j ∧ isTaskAt gOne j))) ∧
      (∀ j v, gOneMarked.lookup j = some v → gOne.lookup j = some v) ∧
      (∀ a b, (a, b) ∈ gOneMarked.edges ↔
        ((a, b) ∈ gOne.edges ∧ ¬(Anc gOne 2 a ∧ isTaskAt gOne a) ∧
          ¬(Anc gOne 2 b ∧ isTaskAt gOne b))) ∧
      (∀ t, t ∈ [(⟨"c", .buildOnly "a" false⟩ : Task)] ↔
        ∃ j r₀, Anc gOne 2 j ∧ gOne.lookup j = some (.task t r₀))) :=
  ⟨rfl, mark_as_failed_prunes 20 gOne 2 gOneMarked [⟨"c", .buildOnly "a" false⟩] rfl⟩

/-! ### Binary32 rounding lemmas, towards the progress-percentage claim -/

theorem rhe_le_ceil (q : ℚ) : rhe q ≤ ⌈q⌉ := by
  unfold rhe
  have hf := Int.floor_le q
  split_ifs with h1 h2 h3
  · exact Int.floor_le_ceil q
  · rw [Int.add_one_le_ceil_iff]
    linarith
  · exact Int.floor_le_ceil q
  · rw [Int.add_one_le_ceil_iff]
    have h1' := not_lt.mp h1
    linarith

theorem rhe_ge (q : ℚ) : q - 1 / 2 ≤ (rhe q : ℚ) := by
  unfold rhe
  have hf := Int.floor_le q
  have hc := Int.lt_floor_add_one q
  split_ifs with h1 h2 h3
  · linarith
  · push_cast
    linarith
  · have h1' := not_lt.mp h1
    linarith
  · push_cast
    linarith

theorem rhe_intCast (n : ℤ) : rhe ((n : ℚ)) = n := by
  unfold rhe
  rw [Int.floor_intCast]
  norm_num

theorem f32expAux_spec (q : ℚ) :
    ∀ (fuel : Nat) (e : ℤ), (2:ℚ) ^ e ≤ q → q < (2:ℚ) ^ (e + fuel) →
      (2:ℚ) ^ f32expAux q fuel e ≤ q ∧ q < (2:ℚ) ^ (f32expAux q fuel e + 1) := by
  intro fuel
  induction fuel with
  | zero =>
    intro e hle hlt
    norm_num at hlt
    exact absurd hle (not_le.mpr hlt)
  | succ fuel ih =>
    intro e hle hlt
    simp only [f32expAux]
    by_cases h : q < 2 ^ (e + 1)
    · rw [if_pos h]
      exact ⟨hle, h⟩
    · rw [if_neg h]
      have hcast : (e + (↑(fuel + 1) : ℤ)) = e + 1 + (fuel : ℤ) := by
        push_cast
        ring
      rw [hcast] at hlt
      exact ih (e + 1) (not_lt.mp h) hlt

theorem f32exp_bounds (q : ℚ) (h1 : (2:ℚ) ^ (-151 : ℤ) ≤ q)
    (h2 : q < (2:ℚ) ^ (152 : ℤ)) :
    (2:ℚ) ^ f32exp q ≤ q ∧ q < (2:ℚ) ^ (f32exp q + 1) := by
  refine f32expAux_spec q 303 (-151) h1 ?_
  rw [show ((-151 : ℤ) + (303 : ℕ)) = 152 from by norm_num]
  exact h2

theorem f32exp_lt (q : ℚ) (h1 : (2:ℚ) ^ (-151 : ℤ) ≤ q)
    (h2 : q < (2:ℚ) ^ (152 : ℤ)) (m : ℤ) (hm : q < (2:ℚ) ^ m) : f32exp q < m := by
  have hb := f32exp_bounds q h1 h2
  exact (zpow_lt_zpow_iff_right₀ one_lt_two).mp (lt_of_le_of_lt hb.1 hm)

theorem roundF32_int_exact (n : ℤ) (h0 : 0 < n) (h24 : n < 2 ^ 24) :
    roundF32 ((n : ℚ)) = (n : ℚ) := by
  have hq0 : (0:ℚ) < n := by exact_mod_cast h0
  have h1 : (2:ℚ) ^ (-151 : ℤ) ≤ (n : ℚ) := by
    calc (2:ℚ) ^ (-151 : ℤ) ≤ (2:ℚ) ^ (0 : ℤ) :=
          zpow_le_zpow_right₀ one_le_two (by norm_num)
      _ = 1 := zpow_zero 2
      _ ≤ (n : ℚ) := by exact_mod_cast h0
  have hn24 : (n : ℚ) < (2:ℚ) ^ (24 : ℤ) := by
    rw [show ((24:ℤ)) = ((24:ℕ) : ℤ) from by norm_num, zpow_natCast]
    exact_mod_cast h24
  have h2 : (n : ℚ) < (2:ℚ) ^ (152 : ℤ) :=
    lt_of_lt_of_le hn24 (zpow_le_zpow_right₀ one_le_two (by norm_num))
  obtain ⟨hb1, hb2⟩ := f32exp_bounds _ h1 h2
  have he : f32exp ((n:ℚ)) < 24 := f32exp_lt _ h1 h2 24 hn24
  unfold roundF32
  rw [if_neg (not_le.mpr hq0)]
  set e := f32exp ((n:ℚ)) with hedef
  have hele : -151 ≤ e := by
    by_contra hcon
    push_neg at hcon
    have : (2:ℚ) ^ (e + 1) ≤ (2:ℚ) ^ (-151 : ℤ) :=
      zpow_le_zpow_right₀ one_le_two (by omega)
    linarith
  have hk : (((23 - e).toNat : ℤ)) = 23 - e := Int.toNat_of_nonneg (by omega)
  have hx : (n : ℚ) * (2:ℚ) ^ ((23:ℤ) - e) = ((n * 2 ^ (23 - e).toNat : ℤ) : ℚ) := by
    push_cast
    rw [← zpow_natCast (2:ℚ) ((23 - e).toNat), hk]
  rw [hx, rhe_intCast]
  push_cast
  rw [← zpow_natCast (2:ℚ) ((23 - e).toNat), hk, mul_assoc,
    ← zpow_add₀ (two_ne_zero : (2:ℚ) ≠ 0),
    show (23 - e) + (e - 23) = 0 from by ring, zpow_zero, mul_one]

theorem u8ofF32_intCast (m : ℤ) (hm : 0 < m) :
    u8ofF32 ((m : ℚ)) = min m.toNat 255 := by
  unfold u8ofF32
  rw [if_neg (not_le.mpr (by exact_mod_cast hm))]
  by_cases h : (255 : ℤ) ≤ m
  · rw [if_pos (by exact_mod_cast h)]
    omega
  · rw [if_neg (by exact_mod_cast h), Int.floor_intCast]
    omega

theorem fract_ge_one_div (a t : ℤ) (ht0 : 0 < t)
    (hni : ((⌊(a:ℚ)/(t:ℚ)⌋ : ℚ)) ≠ (a:ℚ)/(t:ℚ)) :
    1 / (t:ℚ) ≤ (a:ℚ)/(t:ℚ) - (⌊(a:ℚ)/(t:ℚ)⌋ : ℚ) := by
  have hta : (0:ℚ) < t := by exact_mod_cast ht0
  have h1 : ((⌊(a:ℚ)/(t:ℚ)⌋ : ℚ)) * t ≤ a := (le_div_iff₀ hta).mp (Int.floor_le _)
  have h1' : ⌊(a:ℚ)/(t:ℚ)⌋ * t ≤ a := by exact_mod_cast h1
  have hne : ⌊(a:ℚ)/(t:ℚ)⌋ * t ≠ a := by
    intro heq
    apply hni
    have hcast : ((a:ℤ) : ℚ) = ((⌊(a:ℚ)/(t:ℚ)⌋ : ℚ)) * t := by exact_mod_cast heq.symm
    have hgoal : (a:ℚ)/(t:ℚ) = ((⌊(a:ℚ)/(t:ℚ)⌋ : ℚ)) := by
      conv_lhs => rw [hcast]
      rw [mul_div_assoc, div_self (ne_of_gt hta), mul_one]
    exact hgoal.symm
  have h2 : ⌊(a:ℚ)/(t:ℚ)⌋ * t + 1 ≤ a := by omega
  have h3 : ((⌊(a:ℚ)/(t:ℚ)⌋ : ℚ)) * t + 1 ≤ (a:ℚ) := by exact_mod_cast h2
  have expand : (a:ℚ)/(t:ℚ) - ((⌊(a:ℚ)/(t:ℚ)⌋ : ℚ)) =
      ((a:ℚ) - ((⌊(a:ℚ)/(t:ℚ)⌋ : ℚ)) * t) / t := by
    field_simp
    ring
  rw [expand]
  gcongr
  linarith

theorem ceil_roundF32_div (a t : ℤ) (ha0 : 0 < a) (ha : a < 2 ^ 24)
    (ht0 : 0 < t) (ht : t ≤ 2 ^ 33) :
    ⌈roundF32 ((a : ℚ) / (t : ℚ))⌉ = ⌈(a : ℚ) / (t : ℚ)⌉ := by
  have hta : (0:ℚ) < t := by exact_mod_cast ht0
  have haq : (0:ℚ) < a := by exact_mod_cast ha0
  have hq0 : (0:ℚ) < (a:ℚ) / t := div_pos haq hta
  have ha1 : (1:ℚ) ≤ a := by exact_mod_cast ha0
  have ht1 : (1:ℚ) ≤ t := by exact_mod_cast ht0
  have htq : (t:ℚ) ≤ (2:ℚ) ^ (33 : ℤ) := by
    rw [show ((33:ℤ)) = ((33:ℕ) : ℤ) from by norm_num, zpow_natCast]
    exact_mod_cast ht
  have haq24 : (a:ℚ) < (2:ℚ) ^ (24 : ℤ) := by
    rw [show ((24:ℤ)) = ((24:ℕ) : ℤ) from by norm_num, zpow_natCast]
    exact_mod_cast ha
  have hlo : (2:ℚ) ^ (-151 : ℤ) ≤ (a:ℚ) / t := by
    have h1t : (2:ℚ) ^ (-33 : ℤ) ≤ (t:ℚ)⁻¹ := by
      rw [zpow_neg]
      exact inv_anti₀ hta htq
    calc (2:ℚ) ^ (-151 : ℤ) ≤ (2:ℚ) ^ (-33 : ℤ) :=
          zpow_le_zpow_right₀ one_le_two (by norm_num)
      _ ≤ (t:ℚ)⁻¹ := h1t
      _ = 1 / t := (one_div _).symm
      _ ≤ (a:ℚ) / t := by gcongr
  have hqa : (a:ℚ) / t ≤ (a:ℚ) := div_le_self haq.le ht1
  have hhi : (a:ℚ) / t < (2:ℚ) ^ (152 : ℤ) :=
    lt_of_le_of_lt hqa (lt_of_lt_of_le haq24
      (zpow_le_zpow_right₀ one_le_two (by norm_num)))
  obtain ⟨hb1, hb2⟩ := f32exp_bounds _ hlo hhi
  have hqlt24 : (a:ℚ) / t < (2:ℚ) ^ (24 : ℤ) := lt_of_le_of_lt hqa haq24
  have he24 : f32exp ((a:ℚ) / t) < 24 := f32exp_lt _ hlo hhi 24 hqlt24
  unfold roundF32
  rw [if_neg (not_le.mpr hq0)]
  set e := f32exp ((a:ℚ) / (t:ℚ)) with hedef
  have hmul : ∀ m n : ℤ, (2:ℚ) ^ m * (2:ℚ) ^ n = (2:ℚ) ^ (m + n) := fun m n =>
    (zpow_add₀ (two_ne_zero : (2:ℚ) ≠ 0) m n).symm
  have hk : (((23 - e).toNat : ℤ)) = 23 - e := by
    have hele : -151 ≤ e := by
      by_contra hcon
      push_neg at hcon
      have hch : (2:ℚ) ^ (e + 1) ≤ (2:ℚ) ^ (-151 : ℤ) :=
        zpow_le_zpow_right₀ one_le_two (by omega)
      exact absurd (lt_of_lt_of_le hb2 (le_trans hch hlo)) (lt_irrefl _)
    exact Int.toNat_of_nonneg (by omega)
  have e1 : (2:ℚ) ^ ((23:ℤ) - e) * (2:ℚ) ^ (e - 23) = 1 := by
    rw [hmul, show (23:ℤ) - e + (e - 23) = 0 from by ring, zpow_zero]
  have e2 : (1:ℚ) / 2 * (2:ℚ) ^ (e - 23) = (2:ℚ) ^ (e - 24) := by
    rw [show (1:ℚ)/2 = (2:ℚ) ^ (-1 : ℤ) from by rw [zpow_neg, zpow_one, one_div],
      hmul, show (-1 : ℤ) + (e - 23) = e - 24 from by ring]
  have hrle : (rhe ((a:ℚ)/t * 2 ^ ((23:ℤ) - e)) : ℚ) * 2 ^ (e - 23) ≤ (⌈(a:ℚ)/t⌉ : ℚ) := by
    have hr1 : rhe ((a:ℚ)/t * 2 ^ ((23:ℤ) - e)) ≤ ⌈(a:ℚ)/t * 2 ^ ((23:ℤ) - e)⌉ :=
      rhe_le_ceil _
    have hr2 : ⌈(a:ℚ)/t * 2 ^ ((23:ℤ) - e)⌉ ≤ ⌈(a:ℚ)/t⌉ * 2 ^ (23 - e).toNat := by
      apply Int.ceil_le.mpr
      push_cast
      rw [← zpow_natCast (2:ℚ) ((23 - e).toNat), hk]
      gcongr
      exact Int.le_ceil _
    calc (rhe ((a:ℚ)/t * 2 ^ ((23:ℤ) - e)) : ℚ) * 2 ^ (e - 23)
        ≤ ((⌈(a:ℚ)/t⌉ * 2 ^ (23 - e).toNat : ℤ) : ℚ) * 2 ^ (e - 23) := by
          gcongr
          exact_mod_cast le_trans hr1 hr2
      _ = (⌈(a:ℚ)/t⌉ : ℚ) := by
          push_cast
          rw [← zpow_natCast (2:ℚ) ((23 - e).toNat), hk, mul_assoc, e1, mul_one]
  have hrge : (a:ℚ)/t - (2:ℚ) ^ (e - 24) ≤
      (rhe ((a:ℚ)/t * 2 ^ ((23:ℤ) - e)) : ℚ) * 2 ^ (e - 23) := by
    have hr1 : (a:ℚ)/t * 2 ^ ((23:ℤ) - e) - 1/2 ≤
        (rhe ((a:ℚ)/t * 2 ^ ((23:ℤ) - e)) : ℚ) := rhe_ge _
    have hsplit : ((a:ℚ)/t * 2 ^ ((23:ℤ) - e) - 1/2) * 2 ^ (e - 23) =
        (a:ℚ)/t - (2:ℚ) ^ (e - 24) := by
      rw [sub_mul, mul_assoc, e1, mul_one, e2]
    calc (a:ℚ)/t - (2:ℚ) ^ (e - 24)
        = ((a:ℚ)/t * 2 ^ ((23:ℤ) - e) - 1/2) * 2 ^ (e - 23) := hsplit.symm
      _ ≤ (rhe ((a:ℚ)/t * 2 ^ ((23:ℤ) - e)) : ℚ) * 2 ^ (e - 23) :=
          mul_le_mul_of_nonneg_right hr1 (by positivity)
  have hulp1 : (2:ℚ) ^ (e - 24) < 1 := by
    have : (2:ℚ) ^ (e - 24) < (2:ℚ) ^ (0 : ℤ) :=
      (zpow_lt_zpow_iff_right₀ one_lt_two).mpr (by omega)
    simpa using this
  have hceil_le : ⌈(a:ℚ)/t⌉ ≤ ⌊(a:ℚ)/t⌋ + 1 := Int.ceil_le_floor_add_one _
  have hlt : (⌈(a:ℚ)/t⌉ : ℚ) - 1 <
      (rhe ((a:ℚ)/t * 2 ^ ((23:ℤ) - e)) : ℚ) * 2 ^ (e - 23) := by
    by_cases hint : ((⌊(a:ℚ)/(t:ℚ)⌋ : ℚ)) = (a:ℚ)/(t:ℚ)
    · have hceq : ⌈(a:ℚ)/(t:ℚ)⌉ = ⌊(a:ℚ)/(t:ℚ)⌋ := by
        conv_lhs => rw [← hint]
        exact Int.ceil_intCast _
      calc (⌈(a:ℚ)/t⌉ : ℚ) - 1 = ((⌊(a:ℚ)/t⌋ : ℚ)) - 1 := by rw [hceq]
        _ = (a:ℚ)/t - 1 := by rw [hint]
        _ < (a:ℚ)/t - (2:ℚ) ^ (e - 24) := by linarith
        _ ≤ _ := hrge
    · have hfr := fract_ge_one_div a t ht0 hint
      have ht2e : (t:ℚ) < (2:ℚ) ^ ((24:ℤ) - e) := by
        have h2 : (2:ℚ) ^ e * t ≤ a := by
          have := (le_div_iff₀ hta).mp hb1
          linarith
        have h4 : (t:ℚ) < 2 ^ (24:ℤ) / 2 ^ e := by
          rw [lt_div_iff₀ (by positivity : (0:ℚ) < (2:ℚ) ^ e)]
          calc (t:ℚ) * 2 ^ e = 2 ^ e * t := by ring
            _ ≤ a := h2
            _ < 2 ^ (24:ℤ) := haq24
        calc (t:ℚ) < 2 ^ (24:ℤ) / 2 ^ e := h4
          _ = 2 ^ ((24:ℤ) - e) := by
              rw [← zpow_sub₀ (two_ne_zero : (2:ℚ) ≠ 0)]
      have hinv : (2:ℚ) ^ (e - 24) < 1 / (t:ℚ) := by
        rw [show e - 24 = -(24 - e) from by ring, zpow_neg, one_div]
        exact inv_strictAnti₀ hta ht2e
      have h5 : (⌈(a:ℚ)/t⌉ : ℚ) - 1 ≤ (⌊(a:ℚ)/t⌋ : ℚ) := by
        have : ((⌈(a:ℚ)/t⌉ : ℚ)) ≤ ((⌊(a:ℚ)/t⌋ : ℚ)) + 1 := by exact_mod_cast hceil_le
        linarith
      calc (⌈(a:ℚ)/t⌉ : ℚ) - 1 ≤ (⌊(a:ℚ)/t⌋ : ℚ) := h5
        _ = (a:ℚ)/t - ((a:ℚ)/t - (⌊(a:ℚ)/t⌋ : ℚ)) := by ring
        _ ≤ (a:ℚ)/t - 1/t := by linarith
        _ < (a:ℚ)/t - (2:ℚ) ^ (e - 24) := by linarith
        _ ≤ _ := hrge
  have hup : ⌈(rhe ((a:ℚ)/t * 2 ^ ((23:ℤ) - e)) : ℚ) * 2 ^ (e - 23)⌉ ≤ ⌈(a:ℚ)/t⌉ :=
    Int.ceil_le.mpr hrle
  have hdown : ⌈(a:ℚ)/t⌉ ≤ ⌈(rhe ((a:ℚ)/t * 2 ^ ((23:ℤ) - e)) : ℚ) * 2 ^ (e - 23)⌉ := by
    have := Int.add_one_le_ceil_iff.mpr
      (show ((⌈(a:ℚ)/t⌉ - 1 : ℤ) : ℚ) <
        (rhe ((a:ℚ)/t * 2 ^ ((23:ℤ) - e)) : ℚ) * 2 ^ (e - 23) from by push_cast; linarith)
    omega
  omega

set_option maxRecDepth 10000 in
/-- Claim C6 (counterexample): on an experiment with 600 results rows and 100
non-skipped crates rows, `raw_progress` returns `(600, 200)` and the exact
ceiling of `done * 100 / total` is 300, yet `progress` returns 255: every
binary32 step is exact here, but the final `as u8` cast saturates at 255, so
`progress` is not the exact integer ceiling. -/
theorem progress_not_exact :
    exQ.raw_progress exDBbig = (600, 200) ∧
    ⌈(((exQ.raw_progress exDBbig).1 : ℚ) * 100) / ((exQ.raw_progress exDBbig).2 : ℚ)⌉
      = 300 ∧
    exQ.progress exDBbig = 255 := by
  have hraw : exQ.raw_progress exDBbig = (600, 200) := by
    simp [ExperimentData.raw_progress, exQ, exOne, exDBbig, List.filter_replicate]
  refine ⟨hraw, ?_, ?_⟩
  · rw [hraw]
    norm_num
  · have e600 : f32ofNat 600 = (600:ℚ) := by
      unfold f32ofNat
      have h := roundF32_int_exact 600 (by norm_num) (by norm_num)
      exact_mod_cast h
    have e200 : f32ofNat 200 = (200:ℚ) := by
      unfold f32ofNat
      have h := roundF32_int_exact 200 (by norm_num) (by norm_num)
      exact_mod_cast h
    have emul : f32mul (600:ℚ) 100 = (60000:ℚ) := by
      unfold f32mul
      rw [show (600:ℚ) * 100 = ((60000:ℤ) : ℚ) from by norm_num,
        roundF32_int_exact 60000 (by norm_num) (by norm_num)]
      norm_num
    have ediv : f32div (60000:ℚ) (200:ℚ) = (300:ℚ) := by
      unfold f32div
      rw [show (60000:ℚ) / 200 = ((300:ℤ) : ℚ) from by norm_num,
        roundF32_int_exact 300 (by norm_num) (by norm_num)]
      norm_num
    have eceil : f32ceil (300:ℚ) = (300:ℚ) := by
      unfold f32ceil
      norm_num
    have eu8 : u8ofF32 (300:ℚ) = 255 := by
      unfold u8ofF32
      norm_num
    simp only [ExperimentData.progress, hraw]
    rw [if_pos (by norm_num : ((600, 200) : Nat × Nat).2 ≠ 0)]
    rw [e600, e200, emul, ediv, eceil, eu8]

/-- Claim C6 (amended theorem): `raw_progress` returns the results-row count
and twice the non-skipped crates count; `progress` is 0 when the total is 0;
and whenever `100 * done < 2^24` and `total < 2^24` — so every binary32 step
is exact — `progress` equals the exact integer ceiling of `done * 100 /
total` capped at 255 by the saturating `as u8` cast. -/
theorem progress_exact (self : ExperimentData) (db : DB) :
    self.raw_progress db =
      ((db.results.filter fun r => r.1 = self.experiment.name).length,
        (db.experiment_crates.filter
          fun c => c.1 = self.experiment.name ∧ c.2.2 = false).length * 2) ∧
    ((self.raw_progress db).2 = 0 → self.progress db = 0) ∧
    ((self.raw_progress db).2 ≠ 0 →
      100 * (self.raw_progress db).1 < 2 ^ 24 →
      (self.raw_progress db).2 < 2 ^ 24 →
      self.progress db =
        min (⌈(100 * ((self.raw_progress db).1 : ℚ)) /
          ((self.raw_progress db).2 : ℚ)⌉).toNat 255) := by
  refine ⟨rfl, ?_, ?_⟩
  · intro h0
    simp only [ExperimentData.progress]
    rw [if_neg (by simp [h0])]
  · intro h0 hd ht
    simp only [ExperimentData.progress]
    rw [if_pos h0]
    set d := (self.raw_progress db).1 with hddef
    set tt := (self.raw_progress db).2 with httdef
    by_cases hdz : d = 0
    · rw [hdz]
      simp [f32ofNat, f32mul, f32div, f32ceil, u8ofF32, roundF32]
    · have hd0 : 0 < d := Nat.pos_of_ne_zero hdz
      have htt0 : 0 < tt := Nat.pos_of_ne_zero h0
      have er1 : roundF32 (((d:ℕ) : ℚ)) = ((d:ℕ) : ℚ) := by
        have h := roundF32_int_exact (d:ℤ) (by exact_mod_cast hd0)
          (by exact_mod_cast (show d < 2 ^ 24 from by omega))
        exact_mod_cast h
      have er3 : roundF32 (((tt:ℕ) : ℚ)) = ((tt:ℕ) : ℚ) := by
        have h := roundF32_int_exact (tt:ℤ) (by exact_mod_cast htt0)
          (by exact_mod_cast ht)
        exact_mod_cast h
      have hd100 : (0:ℤ) < (d:ℤ) * 100 := by
        exact_mod_cast (show 0 < d * 100 from by omega)
      have hd100' : ((d:ℤ)) * 100 < 2 ^ 24 := by
        exact_mod_cast (show d * 100 < 2 ^ 24 from by omega)
      have hc1 : (((d:ℤ) * 100 : ℤ) : ℚ) = ((d:ℕ) : ℚ) * 100 := by
        push_cast
        ring
      have er2 : roundF32 (((d:ℕ) : ℚ) * 100) = ((d:ℕ) : ℚ) * 100 := by
        have h := roundF32_int_exact ((d:ℤ) * 100) hd100 hd100'
        rw [hc1] at h
        exact h
      have er4 : ⌈roundF32 ((((d:ℕ) : ℚ) * 100) / ((tt:ℕ) : ℚ))⌉ =
          ⌈(((d:ℕ) : ℚ) * 100) / ((tt:ℕ) : ℚ)⌉ := by
        have h := ceil_roundF32_div ((d:ℤ) * 100) (tt:ℤ) hd100 hd100'
          (by exact_mod_cast htt0)
          (by exact_mod_cast (show tt ≤ 2 ^ 33 from by omega))
        rw [hc1] at h
        exact h
      have hq0 : (0:ℚ) < (((d:ℕ) : ℚ) * 100) / ((tt:ℕ) : ℚ) :=
        div_pos (mul_pos (by exact_mod_cast hd0) (by norm_num))
          (by exact_mod_cast htt0)
      have er6 : u8ofF32 ((⌈(((d:ℕ) : ℚ) * 100) / ((tt:ℕ) : ℚ)⌉ : ℤ) : ℚ) =
          min (⌈(((d:ℕ) : ℚ) * 100) / ((tt:ℕ) : ℚ)⌉).toNat 255 :=
        u8ofF32_intCast _ (Int.ceil_pos.mpr hq0)
      simp only [f32ofNat, f32mul, f32div, f32ceil]
      rw [er1, er3, er2, er4, er6,
        show ((d:ℕ) : ℚ) * 100 = 100 * ((d:ℕ) : ℚ) from by ring]

/-- Witness for the amended progress theorem: the one-crate database has one
results row and total 2, the bound hypotheses hold there, and `progress`
equals the capped exact ceiling. -/
theorem progress_exact_witness :
    (exQ.raw_progress exDBsmall).2 ≠ 0 ∧
    100 * (exQ.raw_progress exDBsmall).1 < 2 ^ 24 ∧
    (exQ.raw_progress exDBsmall).2 < 2 ^ 24 ∧
    exQ.progress exDBsmall =
      min (⌈(100 * ((exQ.raw_progress exDBsmall).1 : ℚ)) /
        ((exQ.raw_progress exDBsmall).2 : ℚ)⌉).toNat 255 :=
  ⟨by decide, by decide, by decide,
    (progress_exact exQ exDBsmall).2.2 (by decide) (by decide) (by decide)⟩

end Crater
